import Mathlib

/-!
Verification of the k-in-a-row search engine (tic-tac-toe generalised to an
N x N board with win length K).

The Python sources are embedded shallowly:

* a board is a list of rows, each row a list of Int cell values
  (1 for X, -1 for O, 0 for EMPTY), mirroring the NumPy int array;
* the in-place mutation of the search board is embedded by explicit state
  passing: every function that mutates the board returns the board it leaves
  behind, and the TimeoutError raised by the search is an Except error value;
* wall-clock deadline checks are abstracted by a fuel counter: each
  comparison of elapsed time against the limit consumes one unit of fuel,
  and the deadline is considered exceeded exactly when the fuel is zero.
  Every real execution samples a monotone clock, so its sequence of check
  outcomes is reproduced by some fuel value;
* the float infinities used as alpha/beta sentinels are embedded as the
  bottom and top elements of WithBot (WithTop Int), written XInt below,
  so that they compare correctly against every integer score, whatever the
  board size.
-/

/-- Scores extended with the two float infinities used by the Python code
(math.inf and -math.inf): bottom is -inf, top is +inf. -/
abbrev XInt := WithBot (WithTop Int)

/-- Embed a finite integer score into XInt. -/
def xfin (k : Int) : XInt := ((k : WithTop Int) : XInt)

/-- A move is a (row, column) pair, as in the Python tuples. -/
abbrev Move := Nat × Nat

/-- A board is a list of rows of cell values, mirroring the 2-d NumPy array
of the source (1 = X, -1 = O, 0 = EMPTY). -/
abbrev Board := List (List Int)

/-- Number of rows, board.shape[0] in the source. -/
def numRows (b : Board) : Nat := b.length

/-- Number of columns, board.shape[1] in the source (NumPy arrays are
rectangular, so the length of the first row). -/
def numCols (b : Board) : Nat := (b.headD []).length

/-- Cell read board[r, c]; out-of-range reads return 0.  The embedded code
only reads in bounds (the Python loops guard every access), so the default
never influences a modelled value. -/
def cellAt (b : Board) (r c : Nat) : Int := (b.getD r []).getD c 0

/-- Cell write board[r, c] = v, with value semantics. -/
def setCell (b : Board) (r c : Nat) (v : Int) : Board :=
  b.set r ((b.getD r []).set c v)

/-- Well-formedness: an N x N board, as produced by np.zeros((N, N)). -/
def WFBoard (b : Board) (n : Nat) : Prop :=
  b.length = n ∧ ∀ row ∈ b, row.length = n

/-- Valid cell contents: every cell holds 1, -1 or 0. -/
def ValidCells (b : Board) : Prop :=
  ∀ row ∈ b, ∀ v ∈ row, v = 1 ∨ v = -1 ∨ v = 0

instance (b : Board) (n : Nat) : Decidable (WFBoard b n) := by
  unfold WFBoard
  infer_instance

instance (b : Board) : Decidable (ValidCells b) := by
  unfold ValidCells
  infer_instance

/-- Python range(lo, hi+1) over integers, as a list. -/
def intRange (lo hi : Int) : List Int :=
  (List.range (hi + 1 - lo).toNat).map fun (i : Nat) => lo + (i : Int)

/-- Per-instance data of MinimaxAI used by the search: the signed symbol of
the mover (1 for X, -1 for O), the win length and the board size, mirroring
self.symbol_value, self.WIN_LENGTH and self.board_size. -/
structure AICfg where
  symbolValue : Int
  winLength : Nat
  boardSize : Nat
deriving DecidableEq

namespace MinimaxAI

/-- MinimaxAI.check_direction: walk win_length - 1 steps from (row, col) in
direction (dx, dy) and report whether every visited cell stays on the board
and holds the given symbol (the starting cell is checked by the caller). -/
def check_direction (b : Board) (row col dx dy : Int) (symbol : Int)
    (win_length : Nat) : Bool :=
  (List.range' 1 (win_length - 1)).all fun i =>
    let r := row + dx * i
    let c := col + dy * i
    decide (0 ≤ r) && decide (r < (numRows b : Int)) &&
    decide (0 ≤ c) && decide (c < (numCols b : Int)) &&
    (cellAt b r.toNat c.toNat == symbol)

/-- Scan order of MinimaxAI.check_winner: direction list then row-major cell
order over range(board_size) x range(board_size). -/
def directions : List (Int × Int) := [(0, 1), (1, 0), (1, 1), (-1, 1)]

/-- Row-major list of coordinates scanned by check_winner. -/
def scanCoords (n : Nat) : List (Nat × Nat) :=
  (List.range n).flatMap fun r => (List.range n).map fun c => (r, c)

/-- MinimaxAI.check_winner: first non-empty cell (in row-major order) that
starts a run of win_length equal symbols in one of the four directions gives
the winner; 0 when no such cell exists. -/
def check_winner (cfg : AICfg) (b : Board) : Int :=
  ((scanCoords cfg.boardSize).findSome? fun rc =>
    let symbol := cellAt b rc.1 rc.2
    if symbol ≠ 0 ∧ (directions.any fun d =>
        check_direction b rc.1 rc.2 d.1 d.2 symbol cfg.winLength) then
      some symbol
    else none).getD 0

/-- MinimaxAI.get_possible_moves: the empty cells in the row-major order of
np.where(board == 0). -/
def get_possible_moves (b : Board) : List Move :=
  (List.range (numRows b)).flatMap fun r =>
    (List.range (numCols b)).filterMap fun c =>
      if cellAt b r c = 0 then some (r, c) else none

/-- MinimaxAI.is_draw: no EMPTY cell remains (np.any(board == 0) negated).
The winner is not consulted. -/
def is_draw (b : Board) : Bool := !(b.any fun row => row.any fun v => v == 0)

/-- MinimaxAI.evaluate_move: the move-ordering heuristic.  Center proximity
plus 1000 when the move wins for the mover plus 500 when the same square
wins for the opponent.  The temporary board mutations of the source are
restored before every read by another caller, so the net effect is pure. -/
def evaluate_move (cfg : AICfg) (b : Board) (m : Move) : Int :=
  let center : Nat := cfg.boardSize / 2
  let score : Int := (cfg.boardSize : Int) -
    ((m.1 : Int) - center).natAbs - ((m.2 : Int) - center).natAbs
  let score := if check_winner cfg (setCell b m.1 m.2 cfg.symbolValue)
      = cfg.symbolValue then score + 1000 else score
  let score := if check_winner cfg (setCell b m.1 m.2 (-cfg.symbolValue))
      = -cfg.symbolValue then score + 500 else score
  score

/-- Stable insertion into a list sorted by descending key: the new element
goes after every element with a key greater than or equal to its own, as in
Python sorted(..., reverse=True), which is stable. -/
def insertDesc (key : Move → Int) (x : Move) : List Move → List Move
  | [] => [x]
  | y :: ys => if key x ≤ key y then y :: insertDesc key x ys else x :: y :: ys

/-- Stable insertion into a list sorted by ascending key (Python sorted). -/
def insertAsc (key : Move → Int) (x : Move) : List Move → List Move
  | [] => [x]
  | y :: ys => if key y ≤ key x then y :: insertAsc key x ys else x :: y :: ys

/-- Python sorted(moves, key=key, reverse=True): stable descending sort. -/
def sortDesc (key : Move → Int) (l : List Move) : List Move :=
  l.foldl (fun acc x => insertDesc key x acc) []

/-- Python sorted(moves, key=key): stable ascending sort. -/
def sortAsc (key : Move → Int) (l : List Move) : List Move :=
  l.foldl (fun acc x => insertAsc key x acc) []

/-- Move ordering of the source: sorted by evaluate_move with
reverse=is_maximizing. -/
def ordered_moves (cfg : AICfg) (b : Board) (isMax : Bool) : List Move :=
  if isMax then sortDesc (evaluate_move cfg b) (get_possible_moves b)
  else sortAsc (evaluate_move cfg b) (get_possible_moves b)

/-- MinimaxAI.line_score: 10000 / 1000 / 100 / 10 for K / K-1 / K-2 / K-3
symbols, 1 otherwise.  The function is only ever applied to counts of at
least one symbol, so the truncated Nat subtractions agree with the Python
integer comparisons. -/
def line_score (cfg : AICfg) (count : Nat) : Int :=
  if count = cfg.winLength then 10000
  else if count = cfg.winLength - 1 then 1000
  else if count = cfg.winLength - 2 then 100
  else if count = cfg.winLength - 3 then 10
  else 1

/-- MinimaxAI.evaluate_window: a window with only mover symbols adds its
line_score, one with only opponent symbols subtracts it, a mixed or empty
window scores 0. -/
def evaluate_window (cfg : AICfg) (window : List Int) : Int :=
  let my_count := window.count cfg.symbolValue
  let opp_count := window.count (-cfg.symbolValue)
  if my_count > 0 ∧ opp_count = 0 then line_score cfg my_count
  else if opp_count > 0 ∧ my_count = 0 then -line_score cfg opp_count
  else 0

/-- MinimaxAI.evaluate_line: sum of evaluate_window over every length-K
sliding window of the line (range(len(line) - K + 1) in the source; the
Nat expression len + 1 - K gives the same window count, including zero
windows for lines shorter than K). -/
def evaluate_line (cfg : AICfg) (line : List Int) : Int :=
  ((List.range (line.length + 1 - cfg.winLength)).map fun i =>
    evaluate_window cfg ((line.drop i).take cfg.winLength)).sum

/-- NumPy board.diagonal(offset): for offset >= 0 the cells (i, i+offset),
for offset < 0 the cells (i+|offset|, i); length N - |offset|. -/
def diagAt (b : Board) (offset : Int) : List Int :=
  (List.range (numRows b - offset.natAbs)).map fun i =>
    if 0 ≤ offset then cellAt b i (i + offset.toNat)
    else cellAt b (i + offset.natAbs) i

/-- NumPy np.flipud: reverse the row order. -/
def flipud (b : Board) : Board := b.reverse

/-- MinimaxAI.get_diagonals: the diagonals of the board and of the flipped
board for offsets in range(-(N-K), N-K+1), keeping those of length at least
K (the range already guarantees this when K <= N). -/
def get_diagonals (cfg : AICfg) (b : Board) : List (List Int) :=
  let offsets := intRange (-((cfg.boardSize : Int) - cfg.winLength))
    ((cfg.boardSize : Int) - cfg.winLength)
  (offsets.filterMap fun o =>
    let d := diagAt b o
    if cfg.winLength ≤ d.length then some d else none) ++
  (offsets.filterMap fun o =>
    let d := diagAt (flipud b) o
    if cfg.winLength ≤ d.length then some d else none)

/-- NumPy board.T restricted to what get_all_lines reads: the list of
columns. -/
def transposeB (b : Board) : List (List Int) :=
  (List.range (numCols b)).map fun c => b.map fun row => row.getD c 0

/-- MinimaxAI.get_all_lines: rows, then columns, then diagonals. -/
def get_all_lines (cfg : AICfg) (b : Board) : List (List Int) :=
  b ++ transposeB b ++ get_diagonals cfg b

/-- MinimaxAI.evaluate_board: sum of evaluate_line over all lines. -/
def evaluate_board (cfg : AICfg) (b : Board) : Int :=
  ((get_all_lines cfg b).map (evaluate_line cfg)).sum

/-- MinimaxAI.find_immediate_win: first legal move whose application makes
check_winner report the mover.  The source applies the move, checks, and
restores the cell before returning, so the net effect is pure. -/
def find_immediate_win (cfg : AICfg) (b : Board) : Option Move :=
  (get_possible_moves b).find? fun m =>
    check_winner cfg (setCell b m.1 m.2 cfg.symbolValue) == cfg.symbolValue

/-- MinimaxAI.find_immediate_block: first legal move on which the opponent
would win immediately. -/
def find_immediate_block (cfg : AICfg) (b : Board) : Option Move :=
  (get_possible_moves b).find? fun m =>
    check_winner cfg (setCell b m.1 m.2 (-cfg.symbolValue)) == -cfg.symbolValue

/-- MinimaxAI.board_to_key: the transposition key determines exactly the
board contents (board.tobytes() for a fixed shape and dtype), so the board
itself serves as the key. -/
def board_to_key (b : Board) : Board := b

/-- The transposition table: a dict from board key to (score, principal
variation), embedded as an association list where the most recent binding
shadows older ones. -/
abbrev TTable := List (Board × (XInt × List Move))

/-- Dict lookup self.transposition_table[key]. -/
def ttLookup (tt : TTable) (b : Board) : Option (XInt × List Move) :=
  tt.findSome? fun e => if e.1 = board_to_key b then some e.2 else none

/-- Dict store self.transposition_table[key] = value. -/
def ttStore (tt : TTable) (b : Board) (v : XInt × List Move) : TTable :=
  (board_to_key b, v) :: tt

/-- One sample of the deadline condition time.time() - start_time >=
time_limit.  The first component is true when the deadline has passed;
a passing sample consumes one unit of fuel. -/
def tick (fuel : Nat) : Bool × Nat :=
  if fuel = 0 then (true, 0) else (false, fuel - 1)

/-- Result of one minimax call: an error value models a raised TimeoutError;
the state components are the transposition table, the remaining fuel and the
board as the call leaves it (the board is mutated in place in the source). -/
abbrev MMResult := Except Unit (XInt × List Move) × TTable × Nat × Board

/-- Maximizing move loop of MinimaxAI.minimax (lines 200-216 of the source).
Per move: deadline check, apply, recurse, undo, fold the child score into
max_eval and alpha, and break on beta <= alpha.  When the recursive call
raises, the undo is skipped and the exception propagates, exactly as in the
source, where the assignment restoring the cell follows the recursive call
with no try/finally. -/
def maxLoop (recurse : Board → XInt → XInt → TTable → Nat → MMResult)
    (symbol : Int) (moves : List Move) (maxEval : XInt) (bestPv : List Move)
    (alpha beta : XInt) (tt : TTable) (fuel : Nat) (b : Board) : MMResult :=
  match moves with
  | [] => (.ok (maxEval, bestPv), tt, fuel, b)
  | m :: rest =>
    let (expired, fuel) := tick fuel
    if expired then (.error (), tt, fuel, b) else
    let b1 := setCell b m.1 m.2 symbol
    match recurse b1 alpha beta tt fuel with
    | (.error e, tt1, fuel1, b2) => (.error e, tt1, fuel1, b2)
    | (.ok (score, pv), tt1, fuel1, b2) =>
      let b3 := setCell b2 m.1 m.2 0
      let (maxEval, bestPv) :=
        if maxEval < score then (score, m :: pv) else (maxEval, bestPv)
      let alpha := max alpha score
      if beta ≤ alpha then (.ok (maxEval, bestPv), tt1, fuel1, b3)
      else maxLoop recurse symbol rest maxEval bestPv alpha beta tt1 fuel1 b3

/-- Minimizing move loop of MinimaxAI.minimax (lines 219-236 of the
source), symmetric to maxLoop with min_eval and beta. -/
def minLoop (recurse : Board → XInt → XInt → TTable → Nat → MMResult)
    (symbol : Int) (moves : List Move) (minEval : XInt) (bestPv : List Move)
    (alpha beta : XInt) (tt : TTable) (fuel : Nat) (b : Board) : MMResult :=
  match moves with
  | [] => (.ok (minEval, bestPv), tt, fuel, b)
  | m :: rest =>
    let (expired, fuel) := tick fuel
    if expired then (.error (), tt, fuel, b) else
    let b1 := setCell b m.1 m.2 symbol
    match recurse b1 alpha beta tt fuel with
    | (.error e, tt1, fuel1, b2) => (.error e, tt1, fuel1, b2)
    | (.ok (score, pv), tt1, fuel1, b2) =>
      let b3 := setCell b2 m.1 m.2 0
      let (minEval, bestPv) :=
        if score < minEval then (score, m :: pv) else (minEval, bestPv)
      let beta := min beta score
      if beta ≤ alpha then (.ok (minEval, bestPv), tt1, fuel1, b3)
      else minLoop recurse symbol rest minEval bestPv alpha beta tt1 fuel1 b3

/-- MinimaxAI.minimax.  The depth parameter is the current depth; remaining
is max_depth - depth, so the cutoff test depth >= max_depth of the source
becomes remaining = 0 and the recursion is structural.  In order: deadline
check (raising TimeoutError), terminal winner score 10000 - depth or
-10000 + depth, leaf evaluation at the depth cutoff, draw score 0,
transposition lookup, then the move loop of the active side followed by the
transposition store under the key of the entry board. -/
def minimax (cfg : AICfg) (b : Board) (depth : Nat) (remaining : Nat)
    (isMax : Bool) (alpha beta : XInt) (tt : TTable) (fuel : Nat) : MMResult :=
  let (expired, fuel) := tick fuel
  if expired then (.error (), tt, fuel, b) else
  let winner := check_winner cfg b
  if winner ≠ 0 then
    (.ok (xfin (if winner = cfg.symbolValue then 10000 - (depth : Int)
      else -10000 + (depth : Int)), []), tt, fuel, b)
  else if remaining = 0 then
    (.ok (xfin (evaluate_board cfg b), []), tt, fuel, b)
  else if is_draw b then
    (.ok (xfin 0, []), tt, fuel, b)
  else
    match ttLookup tt b with
    | some cached => (.ok cached, tt, fuel, b)
    | none =>
      let moves := ordered_moves cfg b isMax
      match remaining with
      | 0 => (.ok (xfin (evaluate_board cfg b), []), tt, fuel, b)
      | rem + 1 =>
        if isMax then
          match maxLoop
              (fun b' a' b'' tt' f' =>
                minimax cfg b' (depth + 1) rem false a' b'' tt' f')
              cfg.symbolValue moves ⊥ [] alpha beta tt fuel b with
          | (.error e, tt1, fuel1, b1) => (.error e, tt1, fuel1, b1)
          | (.ok (v, pv), tt1, fuel1, b1) =>
            (.ok (v, pv), ttStore tt1 b (v, pv), fuel1, b1)
        else
          match minLoop
              (fun b' a' b'' tt' f' =>
                minimax cfg b' (depth + 1) rem true a' b'' tt' f')
              (-cfg.symbolValue) moves ⊤ [] alpha beta tt fuel b with
          | (.error e, tt1, fuel1, b1) => (.error e, tt1, fuel1, b1)
          | (.ok (v, pv), tt1, fuel1, b1) =>
            (.ok (v, pv), ttStore tt1 b (v, pv), fuel1, b1)

/-- State of the root move loop: current_best_score (initially -inf) and,
when a move has been recorded, current_best_move with its principal
variation. -/
structure RootState where
  score : XInt
  best : Option (Move × List Move)
deriving DecidableEq

/-- Root move loop of get_move (lines 122-134 of the source).  Per root
move: apply, search one ply down with a full alpha/beta window, undo,
record a strictly better score, then a deadline check that raises
TimeoutError.  A TimeoutError raised inside the search propagates here and
is the error result (caught by the enclosing iteration). -/
def rootLoop (cfg : AICfg) (depthMax : Nat) (moves : List Move)
    (st : RootState) (tt : TTable) (fuel : Nat) (b : Board) :
    Except Unit RootState × TTable × Nat × Board :=
  match moves with
  | [] => (.ok st, tt, fuel, b)
  | m :: rest =>
    let b1 := setCell b m.1 m.2 cfg.symbolValue
    match minimax cfg b1 1 (depthMax - 1) false ⊥ ⊤ tt fuel with
    | (.error e, tt1, fuel1, b2) => (.error e, tt1, fuel1, b2)
    | (.ok (score, pv), tt1, fuel1, b2) =>
      let b3 := setCell b2 m.1 m.2 0
      let st := if st.score < score then ⟨score, some (m, m :: pv)⟩ else st
      let (expired, fuel2) := tick fuel1
      if expired then (.error (), tt1, fuel2, b3)
      else rootLoop cfg depthMax rest st tt1 fuel2 b3

/-- One iterative-deepening iteration at max depth d (lines 110-134 of the
source): clear the transposition table, enumerate and order the root moves
descending, then run the root loop from a -inf score. -/
def rootIter (cfg : AICfg) (b : Board) (d : Nat) (fuel : Nat) :
    Except Unit RootState × TTable × Nat × Board :=
  rootLoop cfg d (sortDesc (evaluate_move cfg b) (get_possible_moves b))
    ⟨⊥, none⟩ [] fuel b

/-- Test self.max_depth is not None and depth > self.max_depth. -/
def depthExceeded (maxDepth : Option Nat) (depth : Nat) : Bool :=
  match maxDepth with
  | none => false
  | some md => decide (md < depth)

/-- The while-loop of get_move (lines 103-156 of the source).  Each pass:
deadline check (line 104), depth-cap check (line 107), one root iteration;
a TimeoutError from the iteration discards its partial result and breaks;
a completed iteration with a recorded move replaces the committed best;
then the post-iteration deadline check (line 153) and depth-cap check
(line 155).  The iters counter only bounds the recursion; every pass that
does not break consumes at least one unit of fuel, so any iters above the
initial fuel leaves the behaviour unchanged. -/
def deepenLoop (cfg : AICfg) (maxDepth : Option Nat) (iters : Nat)
    (best : Option Move) (depth : Nat) (fuel : Nat) (b : Board) : Option Move :=
  match iters with
  | 0 => best
  | iters + 1 =>
    let (expired, fuel) := tick fuel
    if expired then best else
    if depthExceeded maxDepth depth then best else
    match rootIter cfg b depth fuel with
    | (.error _, _, _, _) => best
    | (.ok st, _, fuel1, b1) =>
      let best := match st.best with
        | some (m, _) => some m
        | none => best
      let (expired1, fuel2) := tick fuel1
      if expired1 then best else
      if depthExceeded maxDepth (depth + 1) then best else
      deepenLoop cfg maxDepth iters best (depth + 1) fuel2 b1

/-- MinimaxAI.get_move.  The configuration is rebuilt per call: the win
length and the board size are taken from the arguments (lines 66-67).  The
search works on board_copy = board.copy() (line 75); the caller board is
returned unchanged alongside the chosen move.  Immediate win, then
immediate block short-circuit before the deepening loop; otherwise the loop
runs and the committed best move (None when no iteration completed) is
returned. -/
def get_move (symbol_value : Int) (max_depth : Option Nat) (board : Board)
    (win_length : Nat) (fuel : Nat) : Option Move × Board :=
  let cfg : AICfg := ⟨symbol_value, win_length, numRows board⟩
  let board_copy := board
  (match find_immediate_win cfg board_copy with
  | some m => some m
  | none =>
    match find_immediate_block cfg board_copy with
    | some m => some m
    | none => deepenLoop cfg max_depth (fuel + 1) none 1 fuel board_copy,
  board)

/-- Maximizing loop of the transposition-free pruned search abSearch: the
move loop of minimax stripped of the deadline checks, the board threading
(pure value passing makes apply/undo implicit) and the principal-variation
bookkeeping, none of which influence the returned score. -/
def abMaxFold (recurse : Board → XInt → XInt → XInt) (symbol : Int)
    (moves : List Move) (maxEval alpha beta : XInt) (b : Board) : XInt :=
  match moves with
  | [] => maxEval
  | m :: rest =>
    let score := recurse (setCell b m.1 m.2 symbol) alpha beta
    let maxEval := max maxEval score
    let alpha := max alpha score
    if beta ≤ alpha then maxEval
    else abMaxFold recurse symbol rest maxEval alpha beta b

/-- Minimizing loop of abSearch, symmetric to abMaxFold. -/
def abMinFold (recurse : Board → XInt → XInt → XInt) (symbol : Int)
    (moves : List Move) (minEval alpha beta : XInt) (b : Board) : XInt :=
  match moves with
  | [] => minEval
  | m :: rest =>
    let score := recurse (setCell b m.1 m.2 symbol) alpha beta
    let minEval := min minEval score
    let beta := min beta score
    if beta ≤ alpha then minEval
    else abMinFold recurse symbol rest minEval alpha beta b

/-- MinimaxAI.minimax with the transposition table removed and no deadline:
same terminal scores, same cutoff tests, same move ordering, same alpha-beta
updates and pruning break.  This is the subject of the amended alpha-beta
equivalence: pruning plus ordering alone, without the cache. -/
def abSearch (cfg : AICfg) (b : Board) (depth : Nat) (remaining : Nat)
    (isMax : Bool) (alpha beta : XInt) : XInt :=
  let winner := check_winner cfg b
  if winner ≠ 0 then
    xfin (if winner = cfg.symbolValue then 10000 - (depth : Int)
      else -10000 + (depth : Int))
  else if remaining = 0 then xfin (evaluate_board cfg b)
  else if is_draw b then xfin 0
  else
    match remaining with
    | 0 => xfin (evaluate_board cfg b)
    | rem + 1 =>
      if isMax then
        abMaxFold (fun b' a' b'' => abSearch cfg b' (depth + 1) rem false a' b'')
          cfg.symbolValue (ordered_moves cfg b true) ⊥ alpha beta b
      else
        abMinFold (fun b' a' b'' => abSearch cfg b' (depth + 1) rem true a' b'')
          (-cfg.symbolValue) (ordered_moves cfg b false) ⊤ alpha beta b

/-- Modelled from the spec: the unpruned exhaustive minimax over the same
depth, the comparison object of the alpha-beta result equivalence.  Same
terminal scores and leaf evaluation as minimax, but every legal move is
searched (in the unordered legal-move enumeration) and the best child score
is folded with plain max or min. -/
def plainMinimax (cfg : AICfg) (b : Board) (depth : Nat) (remaining : Nat)
    (isMax : Bool) : XInt :=
  let winner := check_winner cfg b
  if winner ≠ 0 then
    xfin (if winner = cfg.symbolValue then 10000 - (depth : Int)
      else -10000 + (depth : Int))
  else if remaining = 0 then xfin (evaluate_board cfg b)
  else if is_draw b then xfin 0
  else
    match remaining with
    | 0 => xfin (evaluate_board cfg b)
    | rem + 1 =>
      if isMax then
        (get_possible_moves b).foldl (fun acc m =>
          max acc (plainMinimax cfg (setCell b m.1 m.2 cfg.symbolValue)
            (depth + 1) rem false)) ⊥
      else
        (get_possible_moves b).foldl (fun acc m =>
          min acc (plainMinimax cfg (setCell b m.1 m.2 (-cfg.symbolValue))
            (depth + 1) rem true)) ⊤

/-- Root score of the transposition-free pruned search at max depth d: the
root loop of get_move (each root move searched with a full window, best
score kept) without the cache. -/
def abRootScore (cfg : AICfg) (b : Board) (d : Nat) : XInt :=
  (sortDesc (evaluate_move cfg b) (get_possible_moves b)).foldl
    (fun acc m =>
      max acc (abSearch cfg (setCell b m.1 m.2 cfg.symbolValue) 1 (d - 1)
        false ⊥ ⊤)) ⊥

/-- Modelled from the spec: the root score of the unpruned exhaustive
minimax at max depth d. -/
def plainRootScore (cfg : AICfg) (b : Board) (d : Nat) : XInt :=
  (get_possible_moves b).foldl
    (fun acc m =>
      max acc (plainMinimax cfg (setCell b m.1 m.2 cfg.symbolValue) 1 (d - 1)
        false)) ⊥

/-- Score component of a completed root iteration, for stating the
transposition-table counterexample. -/
def rootIterScore (cfg : AICfg) (b : Board) (d : Nat) (fuel : Nat) :
    Option XInt :=
  match rootIter cfg b d fuel with
  | (.ok st, _, _, _) => some st.score
  | (.error _, _, _, _) => none

end MinimaxAI

namespace GameEngine

/-- GameEngine.check_direction: walk WIN_LENGTH - 1 steps from (row, col)
checking bounds against BOARD_ROWS and BOARD_COLS (both n) and the fixed
symbol value. -/
def check_direction (n : Nat) (win_length : Nat) (b : Board)
    (row col dx dy : Int) (symbol_value : Int) : Bool :=
  (List.range' 1 (win_length - 1)).all fun i =>
    let r := row + dx * i
    let c := col + dy * i
    decide (0 ≤ r) && decide (r < (n : Int)) &&
    decide (0 ≤ c) && decide (c < (n : Int)) &&
    (cellAt b r.toNat c.toNat == symbol_value)

/-- GameEngine.check_win: scan row-major for a cell holding the given
symbol value that starts a WIN_LENGTH run in one of the four directions
(0,1), (1,0), (1,1), (-1,1). -/
def check_win (n : Nat) (win_length : Nat) (b : Board)
    (symbol_value : Int) : Bool :=
  (MinimaxAI.scanCoords n).any fun rc =>
    (cellAt b rc.1 rc.2 == symbol_value) &&
    (MinimaxAI.directions.any fun d =>
      check_direction n win_length b rc.1 rc.2 d.1 d.2 symbol_value)

/-- GameEngine.is_draw: no empty squares are left (np.any(self.board == 0)
negated); the winner is not consulted. -/
def is_draw (b : Board) : Bool := !(b.any fun row => row.any fun v => v == 0)

/-- NumPy 1-d indexing l[i]: indices in [0, len) read directly, indices in
[-len, 0) wrap to len + i, anything else raises IndexError. -/
def np_index (l : List Int) (i : Int) : Except Unit Int :=
  if 0 ≤ i ∧ i < l.length then .ok (l.getD i.toNat 0)
  else if -(l.length : Int) ≤ i ∧ i < 0 then .ok (l.getD (i + l.length).toNat 0)
  else .error ()

/-- NumPy row extraction board[r] with the same wrap-or-raise semantics. -/
def np_row (b : Board) (i : Int) : Except Unit (List Int) :=
  if 0 ≤ i ∧ i < b.length then .ok (b.getD i.toNat [])
  else if -(b.length : Int) ≤ i ∧ i < 0 then .ok (b.getD (i + b.length).toNat [])
  else .error ()

/-- GameEngine.available_square: self.board[row][col] == 0 under NumPy
chained indexing; an IndexError from either index is the error result. -/
def available_square (b : Board) (row col : Int) : Except Unit Bool := do
  let r ← np_row b row
  let v ← np_index r col
  pure (v == 0)

end GameEngine

/-- Spec-level run predicate: the board contains K consecutive cells equal
to s along a row, a column, or either diagonal direction, all on the board.
The four step directions cover the four line orientations. -/
def hasRun (b : Board) (K : Nat) (s : Int) : Prop :=
  ∃ r < numRows b, ∃ c < numCols b, ∃ d ∈ MinimaxAI.directions, ∀ i < K,
    0 ≤ (r : Int) + d.1 * i ∧ (r : Int) + d.1 * i < numRows b ∧
    0 ≤ (c : Int) + d.2 * i ∧ (c : Int) + d.2 * i < numCols b ∧
    cellAt b ((r : Int) + d.1 * i).toNat ((c : Int) + d.2 * i).toNat = s

instance (b : Board) (K : Nat) (s : Int) : Decidable (hasRun b K s) := by
  unfold hasRun
  infer_instance

namespace EvalSpec

/-- Modelled from the spec wording of the static evaluator: the score scale
10000 / 1000 / 100 / 10 for K / K-1 / K-2 / K-3 symbols present, 1 for
fewer. -/
def scale (K : Nat) (count : Nat) : Int :=
  if count = K then 10000
  else if count = K - 1 then 1000
  else if count = K - 2 then 100
  else if count = K - 3 then 10
  else 1

/-- Modelled from the spec wording: a mixed window (both symbols present)
scores 0, a pure mover window adds the scale of its count, a pure opponent
window subtracts it, an empty window scores 0. -/
def windowScore (K : Nat) (sv : Int) (w : List Int) : Int :=
  let mine := w.count sv
  let theirs := w.count (-sv)
  if 0 < mine ∧ 0 < theirs then 0
  else if 0 < mine then scale K mine
  else if 0 < theirs then -scale K theirs
  else 0

/-- Length-K sliding windows of a line. -/
def windowsOf (K : Nat) (line : List Int) : List (List Int) :=
  (List.range (line.length + 1 - K)).map fun i => (line.drop i).take K

/-- Sum of window scores over one line. -/
def lineScore (K : Nat) (sv : Int) (line : List Int) : Int :=
  ((windowsOf K line).map (windowScore K sv)).sum

/-- Modelled from the spec wording: every column of the board. -/
def specColumns (b : Board) : List (List Int) :=
  (List.range (numCols b)).map fun c => b.map fun row => row.getD c 0

/-- Modelled from the spec wording: every diagonal of both orientations
whose length is at least K; diagonals shorter than K are excluded. -/
def specDiagonals (b : Board) (K : Nat) : List (List Int) :=
  let offsets := intRange (-((numRows b : Int) - 1)) ((numRows b : Int) - 1)
  (offsets.filterMap fun o =>
    let d := MinimaxAI.diagAt b o
    if K ≤ d.length then some d else none) ++
  (offsets.filterMap fun o =>
    let d := MinimaxAI.diagAt (MinimaxAI.flipud b) o
    if K ≤ d.length then some d else none)

/-- Modelled from the spec wording: the whole static evaluation, summing
window scores over every row, every column and every qualifying diagonal. -/
def evalBoard (K : Nat) (sv : Int) (b : Board) : Int :=
  ((b ++ specColumns b ++ specDiagonals b K).map (lineScore K sv)).sum

end EvalSpec

/-- Configuration of a 3 x 3 game with win length 3, mover X. -/
def cfg33 : AICfg := ⟨1, 3, 3⟩

/-- Concrete position on which the transposition table changes the root
score of the depth-4 search. -/
def bTT : Board := [[-1, 1, 0], [0, 1, 0], [0, -1, 0]]

/-- The empty 3 x 3 board. -/
def empty33 : Board := [[0, 0, 0], [0, 0, 0], [0, 0, 0]]

/-- A full 3 x 3 board whose top row is a win for X. -/
def bFullWin : Board := [[1, 1, 1], [-1, -1, 1], [-1, 1, -1]]

section Helpers

theorem set_getD_self {α : Type} (d : α) :
    ∀ (l : List α) (n : Nat), l.set n (l.getD n d) = l := by
  intro l
  induction l with
  | nil => intro n; rfl
  | cons a t ih =>
    intro n
    cases n with
    | zero => simp
    | succ n => simpa using ih n

theorem set_of_getD_eq {α : Type} (d : α) (l : List α) (n : Nat)
    (h : l.getD n d = d) : l.set n d = l := by
  conv_lhs => rw [← h]
  exact set_getD_self d l n

theorem getD_set_self {α : Type} (d : α) :
    ∀ (l : List α) (n : Nat) (a : α),
      (l.set n a).getD n d = if n < l.length then a else d := by
  intro l
  induction l with
  | nil => intro n a; simp
  | cons x t ih =>
    intro n a
    cases n with
    | zero => simp
    | succ n => simpa using ih n a

theorem set_set_outer {α : Type} :
    ∀ (l : List α) (n : Nat) (a b : α), (l.set n a).set n b = l.set n b := by
  intro l
  induction l with
  | nil => intro n a b; rfl
  | cons x t ih =>
    intro n a b
    cases n with
    | zero => simp
    | succ n => simp only [List.set_cons_succ]; rw [ih n a b]

/-- Applying a symbol to an empty cell and then clearing that cell restores
the board. -/
theorem restore_setCell (b : Board) (r c : Nat) (v : Int)
    (h : cellAt b r c = 0) : setCell (setCell b r c v) r c 0 = b := by
  unfold setCell
  by_cases hr : r < b.length
  · have hrow : (b.set r ((b.getD r []).set c v)).getD r []
        = (b.getD r []).set c v := by
      rw [getD_set_self]
      simp [hr]
    rw [hrow, set_set_outer, set_set_outer]
    rw [set_of_getD_eq _ _ _ h]
    exact set_getD_self _ b r
  · have hb : ∀ x, b.set r x = b := fun x =>
      List.set_eq_of_length_le (Nat.le_of_not_lt hr) ..
    simp [hb]

theorem mem_get_possible_moves {b : Board} {m : Move} :
    m ∈ MinimaxAI.get_possible_moves b ↔
      m.1 < numRows b ∧ m.2 < numCols b ∧ cellAt b m.1 m.2 = 0 := by
  obtain ⟨r, c⟩ := m
  simp only [MinimaxAI.get_possible_moves, List.mem_flatMap, List.mem_filterMap,
    List.mem_range]
  constructor
  · rintro ⟨r', hr', c', hc', h⟩
    by_cases hz : cellAt b r' c' = 0
    · simp [hz] at h
      obtain ⟨rfl, rfl⟩ := h
      exact ⟨hr', hc', hz⟩
    · simp [hz] at h
  · rintro ⟨hr, hc, hz⟩
    exact ⟨r, hr, c, hc, by simp [hz]⟩

theorem insertDesc_perm (key : Move → Int) (a : Move) :
    ∀ l : List Move, (MinimaxAI.insertDesc key a l).Perm (a :: l) := by
  intro l
  induction l with
  | nil => simp [MinimaxAI.insertDesc]
  | cons y ys ih =>
    rw [MinimaxAI.insertDesc]
    by_cases h : key a ≤ key y
    · simp only [h, if_true]
      exact (ih.cons y).trans (List.Perm.swap a y ys)
    · simp [h]

theorem insertAsc_perm (key : Move → Int) (a : Move) :
    ∀ l : List Move, (MinimaxAI.insertAsc key a l).Perm (a :: l) := by
  intro l
  induction l with
  | nil => simp [MinimaxAI.insertAsc]
  | cons y ys ih =>
    rw [MinimaxAI.insertAsc]
    by_cases h : key y ≤ key a
    · simp only [h, if_true]
      exact (ih.cons y).trans (List.Perm.swap a y ys)
    · simp [h]

theorem sortDesc_foldl_perm (key : Move → Int) :
    ∀ (l acc : List Move),
      (l.foldl (fun acc x => MinimaxAI.insertDesc key x acc) acc).Perm (acc ++ l) := by
  intro l
  induction l with
  | nil => intro acc; simp
  | cons x t ih =>
    intro acc
    have h1 := ih (MinimaxAI.insertDesc key x acc)
    have h2 : (MinimaxAI.insertDesc key x acc ++ t).Perm (acc ++ x :: t) :=
      ((insertDesc_perm key x acc).append_right t).trans
        List.perm_middle.symm
    exact h1.trans h2

theorem sortDesc_perm (key : Move → Int) (l : List Move) :
    (MinimaxAI.sortDesc key l).Perm l := by
  simpa using sortDesc_foldl_perm key l []

theorem sortAsc_foldl_perm (key : Move → Int) :
    ∀ (l acc : List Move),
      (l.foldl (fun acc x => MinimaxAI.insertAsc key x acc) acc).Perm (acc ++ l) := by
  intro l
  induction l with
  | nil => intro acc; simp
  | cons x t ih =>
    intro acc
    have h1 := ih (MinimaxAI.insertAsc key x acc)
    have h2 : (MinimaxAI.insertAsc key x acc ++ t).Perm (acc ++ x :: t) :=
      ((insertAsc_perm key x acc).append_right t).trans
        List.perm_middle.symm
    exact h1.trans h2

theorem sortAsc_perm (key : Move → Int) (l : List Move) :
    (MinimaxAI.sortAsc key l).Perm l := by
  simpa using sortAsc_foldl_perm key l []

theorem mem_ordered_moves {cfg : AICfg} {b : Board} {isMax : Bool} {m : Move}
    (h : m ∈ MinimaxAI.ordered_moves cfg b isMax) :
    m ∈ MinimaxAI.get_possible_moves b := by
  unfold MinimaxAI.ordered_moves at h
  cases isMax with
  | true =>
    simp only [if_true] at h
    exact (sortDesc_perm _ _).mem_iff.mp h
  | false =>
    simp only [Bool.false_eq_true, if_false] at h
    exact (sortAsc_perm _ _).mem_iff.mp h

end Helpers

section ClaimC7

/-- C7 counterexample: a full board containing a 3-in-a-row for X is
reported as a draw by is_draw, while the winner scan reports X, so is_draw
is not equivalent to "full and no winner". -/
theorem c7_counterexample :
    MinimaxAI.is_draw bFullWin = true ∧ GameEngine.is_draw bFullWin = true ∧
    MinimaxAI.check_winner cfg33 bFullWin = 1 ∧ hasRun bFullWin 3 1 := by
  refine ⟨by decide, by decide, by decide, by decide⟩

/-- C7 amended: is_draw is true exactly when no EMPTY cell remains; the
winner is not consulted (both the MinimaxAI and the GameEngine versions
compute the same full-board test). -/
theorem c7_amended (b : Board) :
    (MinimaxAI.is_draw b = true ↔ ∀ row ∈ b, ∀ v ∈ row, v ≠ 0) ∧
    GameEngine.is_draw b = MinimaxAI.is_draw b := by
  constructor
  · show (!(b.any fun row => row.any fun v => v == 0)) = true ↔ _
    rw [Bool.not_eq_true', List.any_eq_false]
    constructor
    · intro h row hr v hv hv0
      have h2 := h row hr
      rw [Bool.not_eq_true, List.any_eq_false] at h2
      exact h2 v hv (by simp [hv0])
    · intro h row hr
      rw [Bool.not_eq_true, List.any_eq_false]
      intro v hv
      simp only [beq_iff_eq]
      exact h row hr v hv
  · rfl

end ClaimC7

section ClaimC9

theorem np_index_wrap (l : List Int) (c : Int) (h1 : -(l.length : Int) ≤ c)
    (h2 : c < 0) : GameEngine.np_index l c = GameEngine.np_index l (c + l.length) := by
  unfold GameEngine.np_index
  rw [if_neg (by omega), if_pos (by omega), if_pos (by omega)]

theorem np_row_ok_length {b : Board} {n : Nat} {r : Int} {row : List Int}
    (hwf : WFBoard b n) (h : GameEngine.np_row b r = .ok row) :
    row.length = n := by
  obtain ⟨hlen, hrows⟩ := hwf
  unfold GameEngine.np_row at h
  have hmem : ∀ i : Nat, i < b.length → b.getD i [] ∈ b := by
    intro i hi
    rw [List.getD_eq_getElem _ _ hi]
    exact List.getElem_mem hi
  by_cases h1 : 0 ≤ r ∧ r < (b.length : Int)
  · rw [if_pos h1] at h
    cases h
    exact hrows _ (hmem _ (by omega))
  · rw [if_neg h1] at h
    by_cases h2 : -(b.length : Int) ≤ r ∧ r < 0
    · rw [if_pos h2] at h
      cases h
      exact hrows _ (hmem _ (by omega))
    · rw [if_neg h2] at h
      cases h

/-- C9 counterexample: the coordinates (-1, -1) lie outside [0, N) on the
3 x 3 board, yet available_square silently answers ok true (NumPy wraps
negative indices to the last row and column) instead of raising. -/
theorem c9_counterexample :
    GameEngine.available_square bTT (-1) (-1) = .ok true ∧
    ¬ (0 ≤ (-1 : Int)) := ⟨rfl, by decide⟩

/-- C9 amended: available_square raises IndexError exactly for coordinates
outside [-N, N); coordinates in [-N, 0) are silently wrapped by NumPy to
the corresponding cell counted from the end, so only indices beyond the
wrap range fail fast. -/
theorem c9_amended (b : Board) (n : Nat) (r c : Int) (hwf : WFBoard b n) :
    (((n : Int) ≤ r ∨ r < -(n : Int)) →
      GameEngine.available_square b r c = .error ()) ∧
    ((0 ≤ r ∧ r < (n : Int) ∧ ((n : Int) ≤ c ∨ c < -(n : Int))) →
      GameEngine.available_square b r c = .error ()) ∧
    ((-(n : Int) ≤ r ∧ r < 0) →
      GameEngine.available_square b r c = GameEngine.available_square b (r + n) c) ∧
    ((-(n : Int) ≤ c ∧ c < 0) →
      GameEngine.available_square b r c = GameEngine.available_square b r (c + n)) := by
  obtain ⟨hlen, hrows⟩ := hwf
  refine ⟨?_, ?_, ?_, ?_⟩
  · intro hr
    have h : GameEngine.np_row b r = .error () := by
      unfold GameEngine.np_row
      rw [if_neg (by rw [hlen]; omega), if_neg (by rw [hlen]; omega)]
    unfold GameEngine.available_square
    rw [h]
    rfl
  · rintro ⟨hr0, hrn, hc⟩
    have h : GameEngine.np_row b r = .ok (b.getD r.toNat []) := by
      unfold GameEngine.np_row
      rw [if_pos (by rw [hlen]; omega)]
    have hrl : (b.getD r.toNat []).length = n :=
      np_row_ok_length ⟨hlen, hrows⟩ h
    have h2 : GameEngine.np_index (b.getD r.toNat []) c = .error () := by
      unfold GameEngine.np_index
      rw [if_neg (by rw [hrl]; omega), if_neg (by rw [hrl]; omega)]
    unfold GameEngine.available_square
    rw [h]
    show GameEngine.np_index (b.getD r.toNat []) c >>= _ = _
    rw [h2]
    rfl
  · intro hr
    have h1 : GameEngine.np_row b r = .ok (b.getD (r + b.length).toNat []) := by
      unfold GameEngine.np_row
      rw [if_neg (by rw [hlen]; omega), if_pos (by rw [hlen]; omega)]
    have h2 : GameEngine.np_row b (r + n) = .ok (b.getD (r + b.length).toNat []) := by
      unfold GameEngine.np_row
      rw [if_pos (by rw [hlen]; omega)]
      rw [hlen]
    unfold GameEngine.available_square
    rw [h1, h2]
  · intro hc
    cases hrow : GameEngine.np_row b r with
    | error e =>
      unfold GameEngine.available_square
      rw [hrow]
      rfl
    | ok row =>
      have hrl : row.length = n := np_row_ok_length ⟨hlen, hrows⟩ hrow
      have hwrap := np_index_wrap row c (by rw [hrl]; omega) (by omega)
      rw [hrl] at hwrap
      unfold GameEngine.available_square
      rw [hrow]
      show GameEngine.np_index row c >>= _ = GameEngine.np_index row (c + n) >>= _
      rw [hwrap]

/-- C9 amended witness: the amended statement at the 3 x 3 board bTT with
coordinates 3 and -1. -/
theorem c9_amended_witness :
    GameEngine.available_square bTT 3 0 = .error () ∧
    GameEngine.available_square bTT (-1) 0 = GameEngine.available_square bTT 2 0 := by
  have h := c9_amended bTT 3 3 0 (by constructor <;> decide)
  have h2 := c9_amended bTT 3 (-1) 0 (by constructor <;> decide)
  exact ⟨h.1 (by left; decide), by
    have := h2.2.2.1 (by constructor <;> decide)
    simpa using this⟩

end ClaimC9

section ClaimC2

/-- C2 counterexample: on the empty 3 x 3 board with a zero time budget
(no deepening iteration can complete, no immediate win or block exists,
legal moves exist) get_move returns None, not the first legal move. -/
theorem c2_counterexample :
    (MinimaxAI.get_move 1 none empty33 3 0).1 = none ∧
    MinimaxAI.get_possible_moves empty33 ≠ [] ∧
    MinimaxAI.find_immediate_win cfg33 empty33 = none ∧
    MinimaxAI.find_immediate_block cfg33 empty33 = none := by
  refine ⟨by decide, by decide, by decide, by decide⟩

/-- C2 amended: when no immediate win or block exists and the time budget
is exhausted before the first deepening check (so no iteration completes),
get_move terminates and returns None; it does not fall back to the first
legal move and it never returns an occupied cell, because it returns no
cell at all. -/
theorem c2_amended (sv : Int) (md : Option Nat) (b : Board) (K : Nat)
    (hw : MinimaxAI.find_immediate_win ⟨sv, K, numRows b⟩ b = none)
    (hb : MinimaxAI.find_immediate_block ⟨sv, K, numRows b⟩ b = none) :
    (MinimaxAI.get_move sv md b K 0).1 = none := by
  unfold MinimaxAI.get_move
  simp only [hw, hb]
  show MinimaxAI.deepenLoop _ _ (0 + 1) none 1 0 b = none
  simp [MinimaxAI.deepenLoop, MinimaxAI.tick]

/-- C2 amended witness at the empty 3 x 3 board. -/
theorem c2_amended_witness :
    MinimaxAI.find_immediate_win ⟨1, 3, numRows empty33⟩ empty33 = none ∧
    (MinimaxAI.get_move 1 none empty33 3 0).1 = none :=
  ⟨by decide, c2_amended 1 none empty33 3 (by decide) (by decide)⟩

end ClaimC2

section ClaimC3

/-- C3: get_move operates on board_copy = board.copy(); the board passed by
the caller is returned untouched on every exit path, timeout aborts
included (every fuel value), so no move played during the search leaks into
the caller board. -/
theorem c3_caller_board_unchanged (sv : Int) (md : Option Nat) (b : Board)
    (K fuel : Nat) : (MinimaxAI.get_move sv md b K fuel).2 = b := rfl

end ClaimC3

section Restoration

theorem maxLoop_ok_board
    (recurse : Board → XInt → XInt → MinimaxAI.TTable → Nat → MinimaxAI.MMResult)
    (hrec : ∀ b a b2 tt f r tt1 f1 b1,
      recurse b a b2 tt f = (.ok r, tt1, f1, b1) → b1 = b)
    (symbol : Int) (b : Board) :
    ∀ (moves : List Move) (maxEval : XInt) (bestPv : List Move)
      (alpha beta : XInt) (tt : MinimaxAI.TTable) (fuel : Nat)
      (res : XInt × List Move) (tt1 : MinimaxAI.TTable) (f1 : Nat) (b1 : Board),
      (∀ m ∈ moves, cellAt b m.1 m.2 = 0) →
      MinimaxAI.maxLoop recurse symbol moves maxEval bestPv alpha beta tt fuel b
        = (.ok res, tt1, f1, b1) → b1 = b := by
  intro moves
  induction moves with
  | nil =>
    intro maxEval bestPv alpha beta tt fuel res tt1 f1 b1 hm h
    rw [MinimaxAI.maxLoop] at h
    cases h
    rfl
  | cons m rest ih =>
    intro maxEval bestPv alpha beta tt fuel res tt1 f1 b1 hm h
    rw [MinimaxAI.maxLoop] at h
    by_cases hf : fuel = 0
    · simp [MinimaxAI.tick, hf] at h
    · simp only [MinimaxAI.tick, hf, if_false, ite_false, Bool.false_eq_true] at h
      rcases hr : recurse (setCell b m.1 m.2 symbol) alpha beta tt (fuel - 1)
        with ⟨e | s, tt2, f2, b2⟩
      · rw [hr] at h
        simp at h
      · rw [hr] at h
        obtain ⟨score, pv⟩ := s
        have hb2 : b2 = setCell b m.1 m.2 symbol :=
          hrec _ _ _ _ _ _ _ _ _ hr
        have hrestore : setCell b2 m.1 m.2 0 = b := by
          rw [hb2]
          exact restore_setCell b m.1 m.2 symbol (hm m (by simp))
        simp only [] at h
        rw [hrestore] at h
        split at h <;> try split at h
        all_goals first
          | (cases h; rfl)
          | exact ih _ _ _ _ _ _ _ _ _ _ (fun x hx => hm x (by simp [hx])) h

theorem minLoop_ok_board
    (recurse : Board → XInt → XInt → MinimaxAI.TTable → Nat → MinimaxAI.MMResult)
    (hrec : ∀ b a b2 tt f r tt1 f1 b1,
      recurse b a b2 tt f = (.ok r, tt1, f1, b1) → b1 = b)
    (symbol : Int) (b : Board) :
    ∀ (moves : List Move) (minEval : XInt) (bestPv : List Move)
      (alpha beta : XInt) (tt : MinimaxAI.TTable) (fuel : Nat)
      (res : XInt × List Move) (tt1 : MinimaxAI.TTable) (f1 : Nat) (b1 : Board),
      (∀ m ∈ moves, cellAt b m.1 m.2 = 0) →
      MinimaxAI.minLoop recurse symbol moves minEval bestPv alpha beta tt fuel b
        = (.ok res, tt1, f1, b1) → b1 = b := by
  intro moves
  induction moves with
  | nil =>
    intro minEval bestPv alpha beta tt fuel res tt1 f1 b1 hm h
    rw [MinimaxAI.minLoop] at h
    cases h
    rfl
  | cons m rest ih =>
    intro minEval bestPv alpha beta tt fuel res tt1 f1 b1 hm h
    rw [MinimaxAI.minLoop] at h
    by_cases hf : fuel = 0
    · simp [MinimaxAI.tick, hf] at h
    · simp only [MinimaxAI.tick, hf, if_false, ite_false, Bool.false_eq_true] at h
      rcases hr : recurse (setCell b m.1 m.2 symbol) alpha beta tt (fuel - 1)
        with ⟨e | s, tt2, f2, b2⟩
      · rw [hr] at h
        simp at h
      · rw [hr] at h
        obtain ⟨score, pv⟩ := s
        have hb2 : b2 = setCell b m.1 m.2 symbol :=
          hrec _ _ _ _ _ _ _ _ _ hr
        have hrestore : setCell b2 m.1 m.2 0 = b := by
          rw [hb2]
          exact restore_setCell b m.1 m.2 symbol (hm m (by simp))
        simp only [] at h
        rw [hrestore] at h
        split at h <;> try split at h
        all_goals first
          | (cases h; rfl)
          | exact ih _ _ _ _ _ _ _ _ _ _ (fun x hx => hm x (by simp [hx])) h

theorem minimax_ok_board (cfg : AICfg) :
    ∀ (remaining : Nat) (b : Board) (depth : Nat) (isMax : Bool)
      (alpha beta : XInt) (tt : MinimaxAI.TTable) (fuel : Nat)
      (r : XInt × List Move) (tt1 : MinimaxAI.TTable) (f1 : Nat) (b1 : Board),
      MinimaxAI.minimax cfg b depth remaining isMax alpha beta tt fuel
        = (.ok r, tt1, f1, b1) → b1 = b := by
  intro remaining
  induction remaining with
  | zero =>
    intro b depth isMax alpha beta tt fuel r tt1 f1 b1 h
    rw [MinimaxAI.minimax] at h
    by_cases hf : fuel = 0
    · simp [MinimaxAI.tick, hf] at h
    · simp only [MinimaxAI.tick, hf, if_false, ite_false, Bool.false_eq_true] at h
      split at h
      · cases h; rfl
      · split at h
        · cases h; rfl
        · exact absurd trivial (by assumption)
  | succ rem ih =>
    intro b depth isMax alpha beta tt fuel r tt1 f1 b1 h
    have hmoves : ∀ (mx : Bool), ∀ m ∈ MinimaxAI.ordered_moves cfg b mx,
        cellAt b m.1 m.2 = 0 := fun mx m hmem =>
      (mem_get_possible_moves.mp (mem_ordered_moves hmem)).2.2
    rw [MinimaxAI.minimax] at h
    by_cases hf : fuel = 0
    · simp [MinimaxAI.tick, hf] at h
    · simp only [MinimaxAI.tick, hf, if_false, ite_false, Bool.false_eq_true,
        Nat.succ_ne_zero] at h
      split at h
      · cases h; rfl
      · split at h
        · cases h; rfl
        · rcases htt : MinimaxAI.ttLookup tt b with _ | cached
          · rw [htt] at h
            simp only [] at h
            cases hb : isMax
            · rw [hb] at h
              simp only [Bool.false_eq_true, if_false, ite_false] at h
              rcases hl : MinimaxAI.minLoop
                  (fun b' a' b'' tt' f' =>
                    MinimaxAI.minimax cfg b' (depth + 1) rem true a' b'' tt' f')
                  (-cfg.symbolValue) (MinimaxAI.ordered_moves cfg b false)
                  ⊤ [] alpha beta tt (fuel - 1) b
                with ⟨e | s, tt2, f2, b2⟩
              · rw [hl] at h
                simp at h
              · rw [hl] at h
                obtain ⟨v, pv⟩ := s
                simp only [] at h
                cases h
                exact minLoop_ok_board _
                  (fun b a b2 tt f r tt1 f1 b1 hh =>
                    ih b (depth + 1) true a b2 tt f r tt1 f1 b1 hh)
                  _ b _ _ _ _ _ _ _ _ _ _ _ (hmoves false) hl
            · rw [hb] at h
              simp only [if_true, ite_true] at h
              rcases hl : MinimaxAI.maxLoop
                  (fun b' a' b'' tt' f' =>
                    MinimaxAI.minimax cfg b' (depth + 1) rem false a' b'' tt' f')
                  cfg.symbolValue (MinimaxAI.ordered_moves cfg b true)
                  ⊥ [] alpha beta tt (fuel - 1) b
                with ⟨e | s, tt2, f2, b2⟩
              · rw [hl] at h
                simp at h
              · rw [hl] at h
                obtain ⟨v, pv⟩ := s
                simp only [] at h
                cases h
                exact maxLoop_ok_board _
                  (fun b a b2 tt f r tt1 f1 b1 hh =>
                    ih b (depth + 1) false a b2 tt f r tt1 f1 b1 hh)
                  _ b _ _ _ _ _ _ _ _ _ _ _ (hmoves true) hl
          · rw [htt] at h
            simp only [] at h
            cases h
            rfl

end Restoration

section RootRestoration

theorem rootLoop_ok_board (cfg : AICfg) (d : Nat) (b : Board) :
    ∀ (moves : List Move) (st : MinimaxAI.RootState) (tt : MinimaxAI.TTable)
      (fuel : Nat) (st1 : MinimaxAI.RootState) (tt1 : MinimaxAI.TTable)
      (f1 : Nat) (b1 : Board),
      (∀ m ∈ moves, cellAt b m.1 m.2 = 0) →
      MinimaxAI.rootLoop cfg d moves st tt fuel b = (.ok st1, tt1, f1, b1) →
      b1 = b := by
  intro moves
  induction moves with
  | nil =>
    intro st tt fuel st1 tt1 f1 b1 hm h
    rw [MinimaxAI.rootLoop] at h
    cases h
    rfl
  | cons m rest ih =>
    intro st tt fuel st1 tt1 f1 b1 hm h
    rw [MinimaxAI.rootLoop] at h
    rcases hr : MinimaxAI.minimax cfg (setCell b m.1 m.2 cfg.symbolValue) 1
        (d - 1) false ⊥ ⊤ tt fuel with ⟨e | s, tt2, f2, b2⟩
    · rw [hr] at h
      simp at h
    · rw [hr] at h
      obtain ⟨score, pv⟩ := s
      have hb2 : b2 = setCell b m.1 m.2 cfg.symbolValue :=
        minimax_ok_board cfg (d - 1) _ 1 false ⊥ ⊤ tt fuel _ _ _ _ hr
      have hrestore : setCell b2 m.1 m.2 0 = b := by
        rw [hb2]
        exact restore_setCell b m.1 m.2 cfg.symbolValue (hm m (by simp))
      simp only [] at h
      rw [hrestore] at h
      by_cases hfz : f2 = 0
      · simp [MinimaxAI.tick, hfz] at h
      · simp only [MinimaxAI.tick, hfz, if_false, ite_false,
          Bool.false_eq_true] at h
        exact ih _ _ _ _ _ _ _ (fun x hx => hm x (by simp [hx])) h

end RootRestoration

section ClaimC4

/-- C4 counterexample: a TimeoutError raised inside a recursive call aborts
minimax after a move has been applied and before the matching undo (the
restoring assignment follows the recursive call with no try/finally), so at
the TimeoutError exit from minimax the board argument differs from its
state at entry: searching the empty board with a budget of two deadline
checks leaves the first tried move on the board. -/
theorem c4_counterexample :
    MinimaxAI.minimax cfg33 empty33 1 2 false ⊥ ⊤ [] 2
      = (.error (), [], 0, [[-1, 0, 0], [0, 0, 0], [0, 0, 0]]) ∧
    [[-1, 0, 0], [0, 0, 0], [0, 0, 0]] ≠ empty33 := ⟨rfl, by decide⟩

/-- C4 amended: at every normal (non-TimeoutError) exit from
MinimaxAI.minimax every apply has been matched by an undo and the board
argument equals its state at entry; on a TimeoutError exit the moves
applied along the aborted path are not undone (the root copy in get_move
shields the caller from the leak). -/
theorem c4_amended (cfg : AICfg) (b : Board) (depth remaining : Nat)
    (isMax : Bool) (alpha beta : XInt) (tt : MinimaxAI.TTable) (fuel : Nat)
    (r : XInt × List Move) (tt1 : MinimaxAI.TTable) (f1 : Nat) (b1 : Board)
    (h : MinimaxAI.minimax cfg b depth remaining isMax alpha beta tt fuel
      = (.ok r, tt1, f1, b1)) : b1 = b :=
  minimax_ok_board cfg remaining b depth isMax alpha beta tt fuel r tt1 f1 b1 h

/-- C4 amended witness: a completed depth-1 search from the concrete
position bTT returns the board exactly as it received it. -/
theorem c4_amended_witness :
    ([[-1, 1, 0], [0, 1, 0], [0, -1, 0]] : Board) = bTT :=
  c4_amended cfg33 bTT 1 1 false ⊥ ⊤ [] 100 (xfin (-1900), [(2, 0)])
    [(bTT, xfin (-1900), [(2, 0)])] 89 [[-1, 1, 0], [0, 1, 0], [0, -1, 0]] rfl

end ClaimC4

section WinnerCorrectness

theorem findSome?_eq_none_iff {α β : Type} {f : α → Option β} :
    ∀ {l : List α}, l.findSome? f = none ↔ ∀ x ∈ l, f x = none := by
  intro l
  induction l with
  | nil => simp
  | cons a t ih =>
    rw [List.findSome?]
    cases hfa : f a with
    | some v => simp [hfa]
    | none =>
      simp only [hfa]
      constructor
      · intro h x hx
        rcases List.mem_cons.mp hx with rfl | hx
        · exact hfa
        · exact ih.mp h x hx
      · intro h
        exact ih.mpr fun x hx => h x (by simp [hx])

theorem exists_of_findSome?_some {α β : Type} {f : α → Option β} :
    ∀ {l : List α} {v : β}, l.findSome? f = some v → ∃ x ∈ l, f x = some v := by
  intro l
  induction l with
  | nil => intro v h; simp [List.findSome?] at h
  | cons a t ih =>
    intro v h
    rw [List.findSome?] at h
    cases hfa : f a with
    | some w =>
      rw [hfa] at h
      cases h
      exact ⟨a, by simp, hfa⟩
    | none =>
      rw [hfa] at h
      obtain ⟨x, hx, hfx⟩ := ih h
      exact ⟨x, by simp [hx], hfx⟩

theorem findSome?_eq_some_of_unique {α β : Type} {f : α → Option β} {v : β} :
    ∀ {l : List α}, (∀ x ∈ l, f x = none ∨ f x = some v) →
      (∃ x ∈ l, f x ≠ none) → l.findSome? f = some v := by
  intro l
  induction l with
  | nil => intro _ h; simp at h
  | cons a t ih =>
    intro hall hex
    rw [List.findSome?]
    cases hfa : f a with
    | some w =>
      rcases hall a (by simp) with h | h
      · rw [hfa] at h; cases h
      · rw [hfa] at h; cases h; rfl
    | none =>
      apply ih (fun x hx => hall x (by simp [hx]))
      obtain ⟨x, hx, hfx⟩ := hex
      rcases List.mem_cons.mp hx with rfl | hx
      · exact absurd hfa hfx
      · exact ⟨x, hx, hfx⟩

theorem mem_scanCoords {n : Nat} {rc : Nat × Nat} :
    rc ∈ MinimaxAI.scanCoords n ↔ rc.1 < n ∧ rc.2 < n := by
  obtain ⟨r, c⟩ := rc
  simp only [MinimaxAI.scanCoords, List.mem_flatMap, List.mem_map,
    List.mem_range]
  constructor
  · rintro ⟨r', hr', c', hc', h⟩
    cases h
    exact ⟨hr', hc'⟩
  · rintro ⟨hr, hc⟩
    exact ⟨r, hr, c, hc, rfl⟩

theorem check_direction_iff {b : Board} {row col dx dy symbol : Int}
    {K : Nat} :
    MinimaxAI.check_direction b row col dx dy symbol K = true ↔
      ∀ i : Nat, 1 ≤ i → i < K →
        0 ≤ row + dx * i ∧ row + dx * i < numRows b ∧
        0 ≤ col + dy * i ∧ col + dy * i < numCols b ∧
        cellAt b (row + dx * i).toNat (col + dy * i).toNat = symbol := by
  unfold MinimaxAI.check_direction
  rw [List.all_eq_true]
  constructor
  · intro h i h1 hK
    have hi : i ∈ List.range' 1 (K - 1) := by
      rw [List.mem_range'_1]
      exact ⟨by omega, by omega⟩
    have := h i hi
    simp only [Bool.and_eq_true, decide_eq_true_eq, beq_iff_eq] at this
    exact ⟨this.1.1.1.1, this.1.1.1.2, this.1.1.2, this.1.2, this.2⟩
  · intro h i hi
    rw [List.mem_range'_1] at hi
    have := h i hi.1 (by omega)
    simp only [Bool.and_eq_true, decide_eq_true_eq, beq_iff_eq]
    exact ⟨⟨⟨⟨this.1, this.2.1⟩, this.2.2.1⟩, this.2.2.2.1⟩, this.2.2.2.2⟩

/-- Characterisation of a run by its start cell plus the directional
walk performed by check_direction (for a positive win length). -/
theorem hasRun_iff_start {b : Board} {K : Nat} {s : Int} (hK : 1 ≤ K) :
    hasRun b K s ↔
      ∃ r < numRows b, ∃ c < numCols b, ∃ d ∈ MinimaxAI.directions,
        cellAt b r c = s ∧
        MinimaxAI.check_direction b r c d.1 d.2 s K = true := by
  constructor
  · rintro ⟨r, hr, c, hc, d, hd, hall⟩
    refine ⟨r, hr, c, hc, d, hd, ?_, ?_⟩
    · have := hall 0 (by omega)
      simpa using this.2.2.2.2
    · rw [check_direction_iff]
      intro i h1 hK'
      exact hall i hK'
  · rintro ⟨r, hr, c, hc, d, hd, hcell, hdir⟩
    refine ⟨r, hr, c, hc, d, hd, ?_⟩
    intro i hiK
    rcases Nat.eq_zero_or_pos i with rfl | hpos
    · simpa using ⟨by omega, by omega, hcell⟩
    · exact (check_direction_iff.mp hdir i hpos hiK)

theorem wf_numRows {b : Board} {n : Nat} (h : WFBoard b n) : numRows b = n :=
  h.1

theorem wf_numCols {b : Board} {n : Nat} (h : WFBoard b n) : numCols b = n := by
  obtain ⟨h1, h2⟩ := h
  unfold numCols
  cases b with
  | nil => simpa using h1
  | cons row t =>
    simpa using h2 row (by simp)

/-- The two direction walkers agree on an N x N board. -/
theorem check_direction_agree {b : Board} {n : Nat} (hwf : WFBoard b n)
    (wl : Nat) (row col dx dy sv : Int) :
    GameEngine.check_direction n wl b row col dx dy sv =
      MinimaxAI.check_direction b row col dx dy sv wl := by
  unfold GameEngine.check_direction MinimaxAI.check_direction
  rw [wf_numRows hwf, wf_numCols hwf]

theorem check_win_iff_hasRun {b : Board} {n K : Nat} {s : Int}
    (hwf : WFBoard b n) (hK : 1 ≤ K) :
    GameEngine.check_win n K b s = true ↔ hasRun b K s := by
  rw [hasRun_iff_start hK]
  unfold GameEngine.check_win
  rw [List.any_eq_true]
  constructor
  · rintro ⟨rc, hrc, hcond⟩
    rw [mem_scanCoords] at hrc
    simp only [Bool.and_eq_true, beq_iff_eq, List.any_eq_true] at hcond
    obtain ⟨hcell, d, hd, hdir⟩ := hcond
    rw [check_direction_agree hwf] at hdir
    exact ⟨rc.1, by rw [wf_numRows hwf]; exact hrc.1,
      rc.2, by rw [wf_numCols hwf]; exact hrc.2, d, hd, hcell, hdir⟩
  · rintro ⟨r, hr, c, hc, d, hd, hcell, hdir⟩
    refine ⟨(r, c), mem_scanCoords.mpr
      ⟨by rw [← wf_numRows hwf]; exact hr, by rw [← wf_numCols hwf]; exact hc⟩, ?_⟩
    simp only [Bool.and_eq_true, beq_iff_eq, List.any_eq_true]
    refine ⟨hcell, d, hd, ?_⟩
    rw [check_direction_agree hwf]
    exact hdir

/-- The scanning function inside check_winner. -/
def winnerProbe (cfg : AICfg) (b : Board) (rc : Nat × Nat) : Option Int :=
  let symbol := cellAt b rc.1 rc.2
  if symbol ≠ 0 ∧ (MinimaxAI.directions.any fun d =>
      MinimaxAI.check_direction b rc.1 rc.2 d.1 d.2 symbol cfg.winLength) then
    some symbol
  else none

theorem check_winner_eq_probe (cfg : AICfg) (b : Board) :
    MinimaxAI.check_winner cfg b =
      (((MinimaxAI.scanCoords cfg.boardSize).findSome?
        (winnerProbe cfg b)).getD 0) := rfl

theorem winnerProbe_some_hasRun {cfg : AICfg} {b : Board} {n : Nat}
    {rc : Nat × Nat} {w : Int} (hwf : WFBoard b n) (hn : cfg.boardSize = n)
    (hK : 1 ≤ cfg.winLength) (hrc : rc ∈ MinimaxAI.scanCoords cfg.boardSize)
    (h : winnerProbe cfg b rc = some w) :
    w ≠ 0 ∧ hasRun b cfg.winLength w := by
  rw [mem_scanCoords] at hrc
  unfold winnerProbe at h
  by_cases hcond : cellAt b rc.1 rc.2 ≠ 0 ∧ (MinimaxAI.directions.any fun d =>
      MinimaxAI.check_direction b rc.1 rc.2 d.1 d.2 (cellAt b rc.1 rc.2)
        cfg.winLength)
  · rw [if_pos hcond] at h
    cases h
    obtain ⟨hne, hany⟩ := hcond
    rw [List.any_eq_true] at hany
    obtain ⟨d, hd, hdir⟩ := hany
    refine ⟨hne, (hasRun_iff_start hK).mpr
      ⟨rc.1, ?_, rc.2, ?_, d, hd, rfl, hdir⟩⟩
    · rw [wf_numRows hwf]; omega
    · rw [wf_numCols hwf]; omega
  · rw [if_neg hcond] at h
    cases h

theorem check_winner_eq_zero_iff {cfg : AICfg} {b : Board} {n : Nat}
    (hwf : WFBoard b n) (hn : cfg.boardSize = n) (hK : 1 ≤ cfg.winLength) :
    MinimaxAI.check_winner cfg b = 0 ↔
      ∀ s : Int, s ≠ 0 → ¬ hasRun b cfg.winLength s := by
  rw [check_winner_eq_probe]
  constructor
  · intro h s hs hrun
    obtain ⟨r, hr, c, hc, d, hd, hcell, hdir⟩ := (hasRun_iff_start hK).mp hrun
    have hmem : (r, c) ∈ MinimaxAI.scanCoords cfg.boardSize :=
      mem_scanCoords.mpr ⟨by rw [hn, ← wf_numRows hwf]; exact hr,
        by rw [hn, ← wf_numCols hwf]; exact hc⟩
    have hprobe : winnerProbe cfg b (r, c) = some s := by
      unfold winnerProbe
      rw [if_pos]
      · simp [hcell]
      · refine ⟨by simp [hcell, hs], ?_⟩
        rw [List.any_eq_true]
        exact ⟨d, hd, by simpa [hcell] using hdir⟩
    cases hfind : (MinimaxAI.scanCoords cfg.boardSize).findSome?
        (winnerProbe cfg b) with
    | none =>
      have := findSome?_eq_none_iff.mp hfind (r, c) hmem
      rw [this] at hprobe
      cases hprobe
    | some v =>
      rw [hfind] at h
      simp only [Option.getD_some] at h
      obtain ⟨x, hx, hfx⟩ := exists_of_findSome?_some hfind
      have := winnerProbe_some_hasRun hwf hn hK hx hfx
      rw [h] at this
      exact this.1 rfl
  · intro h
    cases hfind : (MinimaxAI.scanCoords cfg.boardSize).findSome?
        (winnerProbe cfg b) with
    | none => simp
    | some v =>
      obtain ⟨x, hx, hfx⟩ := exists_of_findSome?_some hfind
      obtain ⟨hne, hrun⟩ := winnerProbe_some_hasRun hwf hn hK hx hfx
      exact absurd hrun (h v hne)

theorem cellAt_valid {b : Board} (hv : ValidCells b) (r c : Nat) :
    cellAt b r c = 1 ∨ cellAt b r c = -1 ∨ cellAt b r c = 0 := by
  unfold cellAt
  by_cases hr : r < b.length
  · have hrow : b.getD r [] ∈ b := by
      rw [List.getD_eq_getElem _ _ hr]
      exact List.getElem_mem hr
    by_cases hc : c < (b.getD r []).length
    · have : (b.getD r []).getD c 0 ∈ b.getD r [] := by
        rw [List.getD_eq_getElem _ _ hc]
        exact List.getElem_mem hc
      exact hv _ hrow _ this
    · right; right
      rw [List.getD_eq_default _ _ (Nat.le_of_not_lt hc)]
  · right; right
    rw [List.getD_eq_default _ _ (Nat.le_of_not_lt hr)]
    simp

theorem hasRun_valid_symbol {b : Board} {K : Nat} {s : Int}
    (hv : ValidCells b) (hK : 1 ≤ K) (h : hasRun b K s) :
    s = 1 ∨ s = -1 ∨ s = 0 := by
  obtain ⟨r, hr, c, hc, d, hd, hall⟩ := h
  have h0 := hall 0 (by omega)
  have hcell : cellAt b r c = s := by simpa using h0.2.2.2.2
  have hval := cellAt_valid hv r c
  rw [hcell] at hval
  exact hval

/-- When exactly one nonzero symbol has a run (on a valid N x N board),
check_winner returns that symbol. -/
theorem check_winner_of_unique_run {cfg : AICfg} {b : Board} {n : Nat}
    {s : Int} (hwf : WFBoard b n) (hn : cfg.boardSize = n)
    (hK : 1 ≤ cfg.winLength) (hv : ValidCells b) (hs : s ≠ 0)
    (hrun : hasRun b cfg.winLength s) (hother : ¬ hasRun b cfg.winLength (-s)) :
    MinimaxAI.check_winner cfg b = s := by
  rw [check_winner_eq_probe]
  have hall : ∀ x ∈ MinimaxAI.scanCoords cfg.boardSize,
      winnerProbe cfg b x = none ∨ winnerProbe cfg b x = some s := by
    intro x hx
    cases hfx : winnerProbe cfg b x with
    | none => exact Or.inl rfl
    | some w =>
      obtain ⟨hwne, hwrun⟩ := winnerProbe_some_hasRun hwf hn hK hx hfx
      right
      have hsv := hasRun_valid_symbol hv hK hwrun
      have hsv2 := hasRun_valid_symbol hv hK hrun
      have hws : w = s := by
        rcases hsv with h1 | h1 | h1
        · rcases hsv2 with h2 | h2 | h2
          · rw [h1, h2]
          · exfalso
            apply hother
            rw [h2]
            rw [h1] at hwrun
            simpa using hwrun
          · exact absurd h2 hs
        · rcases hsv2 with h2 | h2 | h2
          · exfalso
            apply hother
            rw [h2]
            rw [h1] at hwrun
            simpa using hwrun
          · rw [h1, h2]
          · exact absurd h2 hs
        · exact absurd h1 hwne
      rw [hws]
  obtain ⟨r, hr, c, hc, d, hd, hcell, hdir⟩ := (hasRun_iff_start hK).mp hrun
  have hmem : (r, c) ∈ MinimaxAI.scanCoords cfg.boardSize :=
    mem_scanCoords.mpr ⟨by rw [hn, ← wf_numRows hwf]; exact hr,
      by rw [hn, ← wf_numCols hwf]; exact hc⟩
  have hprobe : winnerProbe cfg b (r, c) = some s := by
    unfold winnerProbe
    rw [if_pos]
    · simp [hcell]
    · refine ⟨by simp [hcell, hs], ?_⟩
      rw [List.any_eq_true]
      exact ⟨d, hd, by simpa [hcell] using hdir⟩
  rw [findSome?_eq_some_of_unique hall ⟨(r, c), hmem, by simp [hprobe]⟩]
  rfl

end WinnerCorrectness

section SetCellLemmas

theorem getD_set_ne {α : Type} (d : α) :
    ∀ (l : List α) (n m : Nat) (a : α), m ≠ n →
      (l.set n a).getD m d = l.getD m d := by
  intro l
  induction l with
  | nil => intro n m a h; rfl
  | cons x t ih =>
    intro n m a h
    cases n with
    | zero =>
      cases m with
      | zero => exact absurd rfl h
      | succ m => simp
    | succ n =>
      cases m with
      | zero => simp
      | succ m => simpa using ih n m a (by omega)

theorem cellAt_setCell (b : Board) (r c : Nat) (v : Int) (r' c' : Nat) :
    cellAt (setCell b r c v) r' c' =
      if r' = r ∧ c' = c ∧ r < b.length ∧ c < (b.getD r []).length then v
      else cellAt b r' c' := by
  unfold cellAt setCell
  by_cases hr : r' = r
  · subst hr
    by_cases hrl : r' < b.length
    · rw [getD_set_self]
      simp only [hrl, if_true]
      by_cases hc : c' = c
      · subst hc
        by_cases hcl : c' < (b.getD r' []).length
        · rw [getD_set_self]
          simp only [List.getD_eq_getElem?_getD] at hcl
          simp [hcl]
        · rw [List.set_eq_of_length_le (Nat.le_of_not_lt hcl)]
          simp only [List.getD_eq_getElem?_getD] at hcl
          simp [hcl]
      · rw [getD_set_ne _ _ _ _ _ hc]
        simp [hc]
    · rw [List.set_eq_of_length_le (Nat.le_of_not_lt hrl)]
      simp [hrl]
  · rw [getD_set_ne _ _ _ _ _ hr]
    simp [hr]

theorem numRows_setCell (b : Board) (r c : Nat) (v : Int) :
    numRows (setCell b r c v) = numRows b := by
  unfold numRows setCell
  exact List.length_set ..

theorem numCols_setCell (b : Board) (r c : Nat) (v : Int) :
    numCols (setCell b r c v) = numCols b := by
  unfold numCols setCell
  cases b with
  | nil => rfl
  | cons row t =>
    cases r with
    | zero => simp
    | succ r => simp

theorem wf_setCell {b : Board} {n : Nat} (hwf : WFBoard b n) (r c : Nat)
    (v : Int) : WFBoard (setCell b r c v) n := by
  obtain ⟨h1, h2⟩ := hwf
  by_cases hr : r < b.length
  · refine ⟨by simpa [setCell] using h1, ?_⟩
    intro row hrow
    rcases List.mem_or_eq_of_mem_set hrow with h | h
    · exact h2 row h
    · subst h
      rw [List.length_set]
      exact h2 _ (by rw [List.getD_eq_getElem _ _ hr]; exact List.getElem_mem hr)
  · rw [setCell, List.set_eq_of_length_le (Nat.le_of_not_lt hr)]
    exact ⟨h1, h2⟩

theorem valid_setCell {b : Board} (hv : ValidCells b) (r c : Nat) {v : Int}
    (hval : v = 1 ∨ v = -1 ∨ v = 0) : ValidCells (setCell b r c v) := by
  by_cases hr : r < b.length
  · intro row hrow x hx
    rcases List.mem_or_eq_of_mem_set hrow with h | h
    · exact hv row h x hx
    · subst h
      rcases List.mem_or_eq_of_mem_set hx with h | h
      · exact hv _ (by rw [List.getD_eq_getElem _ _ hr]; exact List.getElem_mem hr) x h
      · subst h
        exact hval
  · rw [setCell, List.set_eq_of_length_le (Nat.le_of_not_lt hr)]
    exact hv

/-- A run of a symbol different from the written value survives removal of
the write: the run cannot pass through the written cell. -/
theorem hasRun_setCell_of_ne {b : Board} {r c : Nat} {v : Int} {K : Nat}
    {t : Int} (ht : t ≠ v) (h : hasRun (setCell b r c v) K t) :
    hasRun b K t := by
  obtain ⟨r0, hr0, c0, hc0, d, hd, hall⟩ := h
  rw [numRows_setCell] at hr0
  rw [numCols_setCell] at hc0
  refine ⟨r0, hr0, c0, hc0, d, hd, ?_⟩
  intro i hi
  have hcell := hall i hi
  rw [numRows_setCell, numCols_setCell] at hcell
  refine ⟨hcell.1, hcell.2.1, hcell.2.2.1, hcell.2.2.2.1, ?_⟩
  have := hcell.2.2.2.2
  rw [cellAt_setCell] at this
  split at this
  · exact absurd this.symm ht
  · exact this

/-- A run of a nonzero symbol survives writing into an empty cell. -/
theorem hasRun_setCell_of_empty {b : Board} {r c : Nat} {v : Int} {K : Nat}
    {t : Int} (ht : t ≠ 0) (hempty : cellAt b r c = 0) (h : hasRun b K t) :
    hasRun (setCell b r c v) K t := by
  obtain ⟨r0, hr0, c0, hc0, d, hd, hall⟩ := h
  rw [← numRows_setCell b r c v] at hr0
  rw [← numCols_setCell b r c v] at hc0
  refine ⟨r0, hr0, c0, hc0, d, hd, ?_⟩
  intro i hi
  have hcell := hall i hi
  rw [← numRows_setCell b r c v, ← numCols_setCell b r c v] at hcell
  refine ⟨hcell.1, hcell.2.1, hcell.2.2.1, hcell.2.2.2.1, ?_⟩
  have hval := hcell.2.2.2.2
  rw [cellAt_setCell]
  split
  · rename_i hcond
    rw [hcond.1, hcond.2.1] at hval
    rw [hempty] at hval
    exact absurd hval.symm ht
  · exact hval

end SetCellLemmas

section WinnerSound

theorem check_winner_hasRun {cfg : AICfg} {b : Board} {n : Nat}
    (hwf : WFBoard b n) (hn : cfg.boardSize = n) (hK : 1 ≤ cfg.winLength)
    (hne : MinimaxAI.check_winner cfg b ≠ 0) :
    hasRun b cfg.winLength (MinimaxAI.check_winner cfg b) := by
  rw [check_winner_eq_probe] at hne ⊢
  cases hfind : (MinimaxAI.scanCoords cfg.boardSize).findSome?
      (winnerProbe cfg b) with
  | none => rw [hfind] at hne; simp at hne
  | some v =>
    obtain ⟨x, hx, hfx⟩ := exists_of_findSome?_some hfind
    simpa using (winnerProbe_some_hasRun hwf hn hK hx hfx).2

end WinnerSound

section ClaimC10

/-- C10: the two win detectors agree.  On a valid N x N board with win
length K: GameEngine.check_win for symbol value s is true exactly when the
board contains K consecutive cells equal to s along a row, column or either
diagonal direction; MinimaxAI.check_winner is nonzero exactly when some
nonzero symbol has such a run; and whenever exactly one symbol has a run,
check_winner returns s exactly when check_win holds for s. -/
theorem c10_win_detectors_agree (n K : Nat) (b : Board) (s : Int)
    (hwf : WFBoard b n) (hv : ValidCells b) (hK : 1 ≤ K) :
    (GameEngine.check_win n K b s = true ↔ hasRun b K s) ∧
    (MinimaxAI.check_winner ⟨1, K, n⟩ b ≠ 0 ↔
      ∃ w : Int, w ≠ 0 ∧ hasRun b K w) ∧
    (s ≠ 0 → hasRun b K s → ¬ hasRun b K (-s) →
      MinimaxAI.check_winner ⟨1, K, n⟩ b = s ∧
      GameEngine.check_win n K b s = true) := by
  have hiff := @check_winner_eq_zero_iff ⟨1, K, n⟩ b n hwf rfl hK
  refine ⟨check_win_iff_hasRun hwf hK, ?_, ?_⟩
  · constructor
    · intro hne
      by_contra hno
      push_neg at hno
      exact hne (hiff.mpr fun w hw => hno w hw)
    · rintro ⟨w, hw, hrun⟩ h0
      exact (hiff.mp h0 w hw) hrun
  · intro hs hrun hother
    exact ⟨check_winner_of_unique_run hwf rfl hK hv hs hrun hother,
      (check_win_iff_hasRun hwf hK).mpr hrun⟩

/-- C10 witness: the agreement at the concrete won board bFullWin. -/
theorem c10_witness :
    MinimaxAI.check_winner ⟨1, 3, 3⟩ bFullWin = 1 ∧
    GameEngine.check_win 3 3 bFullWin 1 = true :=
  (c10_win_detectors_agree 3 3 bFullWin 1 (by decide) (by decide)
    (by decide)).2.2 (by decide) (by decide) (by decide)

end ClaimC10

section ClaimC6

theorem fiw_none_iff (cfg : AICfg) (b : Board) :
    MinimaxAI.find_immediate_win cfg b = none ↔
      ∀ m ∈ MinimaxAI.get_possible_moves b,
        MinimaxAI.check_winner cfg (setCell b m.1 m.2 cfg.symbolValue)
          ≠ cfg.symbolValue := by
  unfold MinimaxAI.find_immediate_win
  rw [List.find?_eq_none]
  simp only [beq_iff_eq]

theorem fiw_some {cfg : AICfg} {b : Board} {m : Move}
    (h : MinimaxAI.find_immediate_win cfg b = some m) :
    m ∈ MinimaxAI.get_possible_moves b ∧
      MinimaxAI.check_winner cfg (setCell b m.1 m.2 cfg.symbolValue)
        = cfg.symbolValue := by
  unfold MinimaxAI.find_immediate_win at h
  exact ⟨List.mem_of_find?_eq_some h, by simpa using List.find?_some h⟩

theorem fib_some {cfg : AICfg} {b : Board} {m : Move}
    (h : MinimaxAI.find_immediate_block cfg b = some m) :
    m ∈ MinimaxAI.get_possible_moves b ∧
      MinimaxAI.check_winner cfg (setCell b m.1 m.2 (-cfg.symbolValue))
        = -cfg.symbolValue := by
  unfold MinimaxAI.find_immediate_block at h
  exact ⟨List.mem_of_find?_eq_some h, by simpa using List.find?_some h⟩

theorem fib_none_iff (cfg : AICfg) (b : Board) :
    MinimaxAI.find_immediate_block cfg b = none ↔
      ∀ m ∈ MinimaxAI.get_possible_moves b,
        MinimaxAI.check_winner cfg (setCell b m.1 m.2 (-cfg.symbolValue))
          ≠ -cfg.symbolValue := by
  unfold MinimaxAI.find_immediate_block
  rw [List.find?_eq_none]
  simp only [beq_iff_eq]

theorem get_move_of_fiw_some {sv : Int} {md : Option Nat} {b : Board}
    {K fuel : Nat} {m : Move}
    (h : MinimaxAI.find_immediate_win ⟨sv, K, numRows b⟩ b = some m) :
    (MinimaxAI.get_move sv md b K fuel).1 = some m := by
  unfold MinimaxAI.get_move
  simp [h]

theorem get_move_of_fib_some {sv : Int} {md : Option Nat} {b : Board}
    {K fuel : Nat} {m : Move}
    (h1 : MinimaxAI.find_immediate_win ⟨sv, K, numRows b⟩ b = none)
    (h2 : MinimaxAI.find_immediate_block ⟨sv, K, numRows b⟩ b = some m) :
    (MinimaxAI.get_move sv md b K fuel).1 = some m := by
  unfold MinimaxAI.get_move
  simp [h1, h2]

/-- C6: when the mover has an immediately winning move (and the position is
not already terminal), get_move plays such a winning move regardless of the
time budget and the depth cap; otherwise, when the opponent threatens an
immediate win, get_move plays a move on a square where the opponent would
complete a run.  The win scan runs before the block scan, so a winning move
takes priority. -/
theorem c6_win_then_block (sv : Int) (md : Option Nat) (b : Board)
    (K fuel n : Nat) (hwf : WFBoard b n) (hv : ValidCells b)
    (hsv : sv = 1 ∨ sv = -1) (hK : 1 ≤ K)
    (hnosv : ¬ hasRun b K sv) (hnoopp : ¬ hasRun b K (-sv)) :
    ((∃ m ∈ MinimaxAI.get_possible_moves b,
        hasRun (setCell b m.1 m.2 sv) K sv) →
      ∃ m, (MinimaxAI.get_move sv md b K fuel).1 = some m ∧
        m ∈ MinimaxAI.get_possible_moves b ∧
        hasRun (setCell b m.1 m.2 sv) K sv) ∧
    ((∀ m ∈ MinimaxAI.get_possible_moves b,
        ¬ hasRun (setCell b m.1 m.2 sv) K sv) →
      (∃ m ∈ MinimaxAI.get_possible_moves b,
        hasRun (setCell b m.1 m.2 (-sv)) K (-sv)) →
      ∃ m, (MinimaxAI.get_move sv md b K fuel).1 = some m ∧
        m ∈ MinimaxAI.get_possible_moves b ∧
        hasRun (setCell b m.1 m.2 (-sv)) K (-sv)) := by
  have hn : numRows b = n := hwf.1
  have hsv0 : sv ≠ 0 := by rcases hsv with rfl | rfl <;> decide
  have hnegsv : -sv ≠ sv := by rcases hsv with rfl | rfl <;> decide
  have hsvval : sv = 1 ∨ sv = -1 ∨ sv = 0 := by tauto
  have hnegval : -sv = 1 ∨ -sv = -1 ∨ -sv = 0 := by
    rcases hsv with rfl | rfl <;> norm_num
  have hneg0 : -sv ≠ 0 := by rcases hsv with rfl | rfl <;> decide
  have hbs : (⟨sv, K, numRows b⟩ : AICfg).boardSize = n := hn
  constructor
  · rintro ⟨m, hm, hrun⟩
    have hwfm : WFBoard (setCell b m.1 m.2 sv) n := wf_setCell hwf ..
    have hnoppm : ¬ hasRun (setCell b m.1 m.2 sv) K (-sv) := fun hbad =>
      hnoopp (hasRun_setCell_of_ne hnegsv hbad)
    have hwin : MinimaxAI.check_winner ⟨sv, K, numRows b⟩
        (setCell b m.1 m.2 sv) = sv :=
      check_winner_of_unique_run hwfm hbs hK
        (valid_setCell hv _ _ hsvval) hsv0 hrun hnoppm
    cases hfw : MinimaxAI.find_immediate_win ⟨sv, K, numRows b⟩ b with
    | none => exact absurd hwin ((fiw_none_iff _ b).mp hfw m hm)
    | some mw =>
      obtain ⟨hmw, hwinw⟩ := fiw_some hfw
      refine ⟨mw, get_move_of_fiw_some hfw, hmw, ?_⟩
      have hrw := check_winner_hasRun (wf_setCell hwf mw.1 mw.2 sv) hbs hK
        (by rw [hwinw]; exact hsv0)
      rw [hwinw] at hrw
      exact hrw
  · rintro hnone ⟨m, hm, hrun⟩
    have hfwnone : MinimaxAI.find_immediate_win ⟨sv, K, numRows b⟩ b = none := by
      rw [fiw_none_iff]
      intro m' hm' heq
      have hrw := check_winner_hasRun (wf_setCell hwf m'.1 m'.2 sv) hbs hK
        (by rw [heq]; exact hsv0)
      rw [heq] at hrw
      exact hnone m' hm' hrw
    have hwfm : WFBoard (setCell b m.1 m.2 (-sv)) n := wf_setCell hwf ..
    have hnosvm : ¬ hasRun (setCell b m.1 m.2 (-sv)) K sv := fun hbad =>
      hnosv (hasRun_setCell_of_ne (fun h => hnegsv h.symm) hbad)
    have hblock : MinimaxAI.check_winner ⟨sv, K, numRows b⟩
        (setCell b m.1 m.2 (-sv)) = -sv := by
      have := check_winner_of_unique_run hwfm hbs hK
        (valid_setCell hv _ _ hnegval) hneg0 hrun (by simpa using hnosvm)
      exact this
    cases hfb : MinimaxAI.find_immediate_block ⟨sv, K, numRows b⟩ b with
    | none => exact absurd hblock ((fib_none_iff _ b).mp hfb m hm)
    | some mb =>
      obtain ⟨hmb, hblockb⟩ := fib_some hfb
      refine ⟨mb, get_move_of_fib_some hfwnone hfb, hmb, ?_⟩
      have hrb := check_winner_hasRun (wf_setCell hwf mb.1 mb.2 (-sv)) hbs hK
        (by rw [hblockb]; exact hneg0)
      rw [hblockb] at hrb
      exact hrb

/-- C6 witness: a concrete board where X completes the top row and a
concrete board where X must block the top row of O. -/
theorem c6_witness :
    (∃ m, (MinimaxAI.get_move 1 none [[1, 1, 0], [-1, -1, 0], [0, 0, 0]] 3 7).1
        = some m ∧
      m ∈ MinimaxAI.get_possible_moves [[1, 1, 0], [-1, -1, 0], [0, 0, 0]] ∧
      hasRun (setCell [[1, 1, 0], [-1, -1, 0], [0, 0, 0]] m.1 m.2 1) 3 1) ∧
    (∃ m, (MinimaxAI.get_move 1 none [[-1, -1, 0], [1, 0, 0], [0, 0, 0]] 3 7).1
        = some m ∧
      m ∈ MinimaxAI.get_possible_moves [[-1, -1, 0], [1, 0, 0], [0, 0, 0]] ∧
      hasRun (setCell [[-1, -1, 0], [1, 0, 0], [0, 0, 0]] m.1 m.2 (-1)) 3 (-1)) :=
  ⟨(c6_win_then_block 1 none [[1, 1, 0], [-1, -1, 0], [0, 0, 0]] 3 7 3
      (by decide) (by decide) (by decide) (by decide) (by decide) (by decide)).1
      ⟨(0, 2), by decide, by decide⟩,
   (c6_win_then_block 1 none [[-1, -1, 0], [1, 0, 0], [0, 0, 0]] 3 7 3
      (by decide) (by decide) (by decide) (by decide) (by decide) (by decide)).2
      (by decide) ⟨(0, 2), by decide, by decide⟩⟩

end ClaimC6

section ClaimC8

theorem mem_intRange {lo hi x : Int} :
    x ∈ intRange lo hi ↔ lo ≤ x ∧ x ≤ hi := by
  unfold intRange
  simp only [List.mem_map, List.mem_range]
  constructor
  · rintro ⟨i, hilt, rfl⟩
    omega
  · rintro ⟨h1, h2⟩
    exact ⟨(x - lo).toNat, by omega, by omega⟩

theorem intRange_split (lo mid hi : Int) (h1 : lo ≤ mid + 1) (h2 : mid ≤ hi) :
    intRange lo hi = intRange lo mid ++ intRange (mid + 1) hi := by
  unfold intRange
  have hn : (hi + 1 - lo).toNat = (mid + 1 - lo).toNat + (hi - mid).toNat := by
    omega
  have harg : hi + 1 - (mid + 1) = hi - mid := by ring
  rw [harg, hn, List.range_add, List.map_append, List.map_map]
  congr 1
  apply List.map_congr_left
  intro i hi'
  simp only [Function.comp_apply]
  omega

theorem diagAt_length (b : Board) (o : Int) :
    (MinimaxAI.diagAt b o).length = numRows b - o.natAbs := by
  unfold MinimaxAI.diagAt
  simp

theorem numRows_flipud (b : Board) : numRows (MinimaxAI.flipud b) = numRows b := by
  unfold numRows MinimaxAI.flipud
  simp

/-- The diagonal offset ranges of the source and of the spec produce the
same kept diagonals: the wider spec range only adds diagonals shorter than
K, which the length filter drops. -/
theorem diag_filter_agree (b : Board) (K : Nat) (hK : 1 ≤ K)
    (hKn : K ≤ numRows b) (c : Board) (hc : numRows c = numRows b) :
    ((intRange (-((numRows b : Int) - 1)) ((numRows b : Int) - 1)).filterMap
      fun o => let d := MinimaxAI.diagAt c o
        if K ≤ d.length then some d else none) =
    ((intRange (-((numRows b : Int) - K)) ((numRows b : Int) - K)).filterMap
      fun o => let d := MinimaxAI.diagAt c o
        if K ≤ d.length then some d else none) := by
  set f : Int → Option (List Int) := fun o =>
    let d := MinimaxAI.diagAt c o
    if K ≤ d.length then some d else none with hf
  have hnone : ∀ o : Int, (numRows b : Int) - K < o.natAbs → f o = none := by
    intro o ho
    have hlen : (MinimaxAI.diagAt c o).length = numRows c - o.natAbs :=
      diagAt_length c o
    rw [hf]
    simp only []
    rw [if_neg]
    rw [hlen, hc]
    omega
  rw [intRange_split (-((numRows b : Int) - 1)) (-((numRows b : Int) - K) - 1)
    ((numRows b : Int) - 1) (by omega) (by omega)]
  rw [intRange_split (-((numRows b : Int) - K) - 1 + 1) ((numRows b : Int) - K)
    ((numRows b : Int) - 1) (by omega) (by omega)]
  rw [List.filterMap_append, List.filterMap_append]
  have hleft : (intRange (-((numRows b : Int) - 1))
      (-((numRows b : Int) - K) - 1)).filterMap f = [] := by
    rw [List.filterMap_eq_nil_iff]
    intro o ho
    rw [mem_intRange] at ho
    exact hnone o (by omega)
  have hright : (intRange ((numRows b : Int) - K + 1)
      ((numRows b : Int) - 1)).filterMap f = [] := by
    rw [List.filterMap_eq_nil_iff]
    intro o ho
    rw [mem_intRange] at ho
    exact hnone o (by omega)
  have hstep : -((numRows b : Int) - K) - 1 + 1 = -((numRows b : Int) - K) := by
    omega
  rw [hstep, hleft, hright]
  simp

theorem get_diagonals_eq_spec (cfg : AICfg) (b : Board)
    (hK : 1 ≤ cfg.winLength) (hKn : cfg.winLength ≤ numRows b)
    (hbs : cfg.boardSize = numRows b) :
    MinimaxAI.get_diagonals cfg b = EvalSpec.specDiagonals b cfg.winLength := by
  unfold MinimaxAI.get_diagonals EvalSpec.specDiagonals
  rw [hbs]
  simp only []
  congr 1
  · exact (diag_filter_agree b cfg.winLength hK hKn b rfl).symm
  · exact (diag_filter_agree b cfg.winLength hK hKn (MinimaxAI.flipud b)
      (numRows_flipud b)).symm

theorem evaluate_window_eq_spec (cfg : AICfg) (w : List Int) :
    MinimaxAI.evaluate_window cfg w =
      EvalSpec.windowScore cfg.winLength cfg.symbolValue w := by
  unfold MinimaxAI.evaluate_window EvalSpec.windowScore EvalSpec.scale
    MinimaxAI.line_score
  by_cases h1 : 0 < w.count cfg.symbolValue <;>
    by_cases h2 : 0 < w.count (-cfg.symbolValue) <;>
      simp [h1, h2, Nat.pos_iff_ne_zero] <;> omega

theorem evaluate_line_eq_spec (cfg : AICfg) (line : List Int) :
    MinimaxAI.evaluate_line cfg line =
      EvalSpec.lineScore cfg.winLength cfg.symbolValue line := by
  unfold MinimaxAI.evaluate_line EvalSpec.lineScore EvalSpec.windowsOf
  rw [List.map_map]
  congr 1
  apply List.map_congr_left
  intro i hi
  simp only [Function.comp_apply]
  exact evaluate_window_eq_spec cfg _

/-- C8: the static evaluator is exactly the signed sum of length-K window
scores over every row, every column, and every diagonal of either
orientation of length at least K, with the 10000/1000/100/10/1 scale,
mixed windows scoring zero and short diagonals contributing nothing. -/
theorem c8_evaluator_spec (cfg : AICfg) (b : Board) (hK : 1 ≤ cfg.winLength)
    (hKn : cfg.winLength ≤ numRows b) (hbs : cfg.boardSize = numRows b) :
    MinimaxAI.evaluate_board cfg b =
      EvalSpec.evalBoard cfg.winLength cfg.symbolValue b := by
  unfold MinimaxAI.evaluate_board EvalSpec.evalBoard MinimaxAI.get_all_lines
  have hcols : MinimaxAI.transposeB b = EvalSpec.specColumns b := rfl
  rw [hcols, get_diagonals_eq_spec cfg b hK hKn hbs]
  congr 1
  apply List.map_congr_left
  intro line hline
  exact evaluate_line_eq_spec cfg line

/-- C8 witness: the evaluator identity at a concrete 5 x 5, K = 4 board. -/
theorem c8_witness :
    MinimaxAI.evaluate_board ⟨1, 4, 5⟩
        [[1, 0, 0, -1, 0], [0, 1, 0, 0, 0], [0, 0, 1, 0, 0],
         [0, -1, 0, 0, 0], [1, 0, 0, 0, -1]] =
      EvalSpec.evalBoard 4 1
        [[1, 0, 0, -1, 0], [0, 1, 0, 0, 0], [0, 0, 1, 0, 0],
         [0, -1, 0, 0, 0], [1, 0, 0, 0, -1]] :=
  c8_evaluator_spec ⟨1, 4, 5⟩ _ (by decide) (by decide) (by decide)

end ClaimC8

section ClaimC5

theorem rootIter_moves_empty (cfg : AICfg) (b : Board) :
    ∀ m ∈ MinimaxAI.sortDesc (MinimaxAI.evaluate_move cfg b)
      (MinimaxAI.get_possible_moves b), cellAt b m.1 m.2 = 0 := fun m hm =>
  (mem_get_possible_moves.mp ((sortDesc_perm _ _).mem_iff.mp hm)).2.2

theorem rootIter_ok_board {cfg : AICfg} {b : Board} {d f : Nat}
    {st : MinimaxAI.RootState} {tt1 : MinimaxAI.TTable} {f1 : Nat} {b1 : Board}
    (h : MinimaxAI.rootIter cfg b d f = (.ok st, tt1, f1, b1)) : b1 = b :=
  rootLoop_ok_board cfg d b _ _ _ _ _ _ _ _ (rootIter_moves_empty cfg b) h

theorem deepenLoop_from_completed (cfg : AICfg) (md : Option Nat) (b : Board) :
    ∀ (iters : Nat) (best : Option Move) (depth fuel : Nat) (m : Move),
      (∀ m', best = some m' → ∃ d f st tt1 f1,
        MinimaxAI.rootIter cfg b d f = (.ok st, tt1, f1, b) ∧
        ∃ pv, st.best = some (m', pv)) →
      MinimaxAI.deepenLoop cfg md iters best depth fuel b = some m →
      ∃ d f st tt1 f1, MinimaxAI.rootIter cfg b d f = (.ok st, tt1, f1, b) ∧
        ∃ pv, st.best = some (m, pv) := by
  intro iters
  induction iters with
  | zero =>
    intro best depth fuel m hinv h
    rw [MinimaxAI.deepenLoop] at h
    exact hinv m h
  | succ iters ih =>
    intro best depth fuel m hinv h
    rw [MinimaxAI.deepenLoop] at h
    by_cases hf : fuel = 0
    · simp only [MinimaxAI.tick, hf, if_true, ite_true] at h
      exact hinv m h
    · simp only [MinimaxAI.tick, hf, if_false, ite_false, Bool.false_eq_true] at h
      by_cases hd : MinimaxAI.depthExceeded md depth = true
      · rw [if_pos hd] at h
        exact hinv m h
      · rw [if_neg hd] at h
        rcases hri : MinimaxAI.rootIter cfg b depth (fuel - 1)
          with ⟨res | st, tt1, f1, b1⟩
        · rw [hri] at h
          simp only [] at h
          exact hinv m h
        · have hb1 : b1 = b := rootIter_ok_board hri
          rw [hb1] at hri
          rw [hri] at h
          simp only [] at h
          set best1 : Option Move := match st.best with
            | some (mv, _) => some mv
            | none => best with hbest1
          have hinv1 : ∀ m', best1 = some m' → ∃ d f st' tt1' f1',
              MinimaxAI.rootIter cfg b d f = (.ok st', tt1', f1', b) ∧
              ∃ pv, st'.best = some (m', pv) := by
            intro m' hm'
            rw [hbest1] at hm'
            cases hsb : st.best with
            | some p =>
              rw [hsb] at hm'
              simp only [] at hm'
              cases hm'
              exact ⟨depth, fuel - 1, st, tt1, f1, hri, p.2, by rw [hsb]⟩
            | none =>
              rw [hsb] at hm'
              exact hinv m' hm'
          by_cases hf1 : f1 = 0
          · simp only [MinimaxAI.tick, hf1, if_true, ite_true] at h
            exact hinv1 m h
          · simp only [MinimaxAI.tick, hf1, if_false, ite_false,
              Bool.false_eq_true] at h
            by_cases hd1 : MinimaxAI.depthExceeded md (depth + 1) = true
            · rw [if_pos hd1] at h
              exact hinv1 m h
            · rw [if_neg hd1] at h
              exact ih _ _ _ _ hinv1 h

/-- C5: a move returned by get_move that is not an immediate win or block
is always the recorded best move of a root iteration that ran to completion
(returned without TimeoutError) on the original board; aborted iterations
contribute nothing to the returned move. -/
theorem c5_no_partial_iteration (sv : Int) (md : Option Nat) (b : Board)
    (K fuel : Nat) (m : Move)
    (hw : MinimaxAI.find_immediate_win ⟨sv, K, numRows b⟩ b = none)
    (hb : MinimaxAI.find_immediate_block ⟨sv, K, numRows b⟩ b = none)
    (hret : (MinimaxAI.get_move sv md b K fuel).1 = some m) :
    ∃ d f st tt1 f1,
      MinimaxAI.rootIter ⟨sv, K, numRows b⟩ b d f = (.ok st, tt1, f1, b) ∧
      ∃ pv, st.best = some (m, pv) := by
  have hloop : MinimaxAI.deepenLoop ⟨sv, K, numRows b⟩ md (fuel + 1) none 1
      fuel b = some m := by
    rw [← hret]
    unfold MinimaxAI.get_move
    simp [hw, hb]
  exact deepenLoop_from_completed ⟨sv, K, numRows b⟩ md b (fuel + 1) none 1
    fuel m (fun m' hm' => by cases hm') hloop

/-- C5 witness: the depth-capped search on bTT returns (2, 0), and that
move is certified to come from a completed root iteration. -/
theorem c5_witness :
    ∃ d f st tt1 f1,
      MinimaxAI.rootIter ⟨1, 3, numRows bTT⟩ bTT d f = (.ok st, tt1, f1, bTT) ∧
      ∃ pv, st.best = some (((2, 0) : Move), pv) :=
  c5_no_partial_iteration 1 (some 2) bTT 3 100000 (2, 0)
    (by decide) (by decide) (by decide)

end ClaimC5

section FoldOrderLemmas

theorem le_foldlMax (V : Move → XInt) :
    ∀ (l : List Move) (X : XInt),
      X ≤ l.foldl (fun acc m => max acc (V m)) X := by
  intro l
  induction l with
  | nil => intro X; exact le_rfl
  | cons m t ih =>
    intro X
    rw [List.foldl_cons]
    exact le_trans (le_max_left X (V m)) (ih (max X (V m)))

theorem foldlMax_mono (V : Move → XInt) :
    ∀ (l : List Move) {X Y : XInt}, X ≤ Y →
      l.foldl (fun acc m => max acc (V m)) X
        ≤ l.foldl (fun acc m => max acc (V m)) Y := by
  intro l
  induction l with
  | nil => intro X Y h; exact h
  | cons m t ih =>
    intro X Y h
    rw [List.foldl_cons, List.foldl_cons]
    exact ih (max_le_max h le_rfl)

theorem foldlMax_shift (V : Move → XInt) :
    ∀ (l : List Move) (X Y : XInt),
      l.foldl (fun acc m => max acc (V m)) (max X Y)
        = max X (l.foldl (fun acc m => max acc (V m)) Y) := by
  intro l
  induction l with
  | nil => intro X Y; rfl
  | cons m t ih =>
    intro X Y
    rw [List.foldl_cons, List.foldl_cons, max_assoc, ih]

theorem foldlMax_bot (V : Move → XInt) (l : List Move) (X : XInt) :
    l.foldl (fun acc m => max acc (V m)) X
      = max X (l.foldl (fun acc m => max acc (V m)) ⊥) := by
  have h : max X (⊥ : XInt) = X := max_eq_left bot_le
  conv_lhs => rw [← h]
  exact foldlMax_shift V l X ⊥

theorem foldlMin_le (V : Move → XInt) :
    ∀ (l : List Move) (X : XInt),
      l.foldl (fun acc m => min acc (V m)) X ≤ X := by
  intro l
  induction l with
  | nil => intro X; exact le_rfl
  | cons m t ih =>
    intro X
    rw [List.foldl_cons]
    exact le_trans (ih (min X (V m))) (min_le_left X (V m))

theorem foldlMin_mono (V : Move → XInt) :
    ∀ (l : List Move) {X Y : XInt}, X ≤ Y →
      l.foldl (fun acc m => min acc (V m)) X
        ≤ l.foldl (fun acc m => min acc (V m)) Y := by
  intro l
  induction l with
  | nil => intro X Y h; exact h
  | cons m t ih =>
    intro X Y h
    rw [List.foldl_cons, List.foldl_cons]
    exact ih (min_le_min h le_rfl)

theorem foldlMin_shift (V : Move → XInt) :
    ∀ (l : List Move) (X Y : XInt),
      l.foldl (fun acc m => min acc (V m)) (min X Y)
        = min X (l.foldl (fun acc m => min acc (V m)) Y) := by
  intro l
  induction l with
  | nil => intro X Y; rfl
  | cons m t ih =>
    intro X Y
    rw [List.foldl_cons, List.foldl_cons, min_assoc, ih]

theorem foldlMin_top (V : Move → XInt) (l : List Move) (X : XInt) :
    l.foldl (fun acc m => min acc (V m)) X
      = min X (l.foldl (fun acc m => min acc (V m)) ⊤) := by
  have h : min X (⊤ : XInt) = X := min_eq_left le_top
  conv_lhs => rw [← h]
  exact foldlMin_shift V l X ⊤

end FoldOrderLemmas

section FailSoftFold

theorem foldlMax_le_max (V : Move → XInt) (l : List Move) (X Y : XInt) :
    l.foldl (fun acc m => max acc (V m)) X
      ≤ max X (l.foldl (fun acc m => max acc (V m)) Y) := by
  rw [foldlMax_bot V l X]
  exact max_le_max le_rfl (foldlMax_mono V l bot_le)

theorem min_foldlMin_le (V : Move → XInt) (l : List Move) (X Y : XInt) :
    min X (l.foldl (fun acc m => min acc (V m)) Y)
      ≤ l.foldl (fun acc m => min acc (V m)) X := by
  rw [foldlMin_top V l X]
  exact min_le_min le_rfl (foldlMin_mono V l le_top)

/-- Fail-soft property of the maximizing alpha-beta move loop relative to
the window (alpha, beta): exact inside the window, bounded by alpha from
above (and below by the true value) when the true value fails low, bounded
by beta from below (and above by the true value) when it fails high. -/
theorem abMaxFold_failsoft (recurse : Board → XInt → XInt → XInt)
    (symbol : Int) (b : Board) (V : Move → XInt) :
    ∀ (moves : List Move) (M alpha beta : XInt),
      alpha < beta → M ≤ alpha →
      (∀ m ∈ moves, ∀ a c : XInt, a < c →
        ((a < V m → V m < c →
            recurse (setCell b m.1 m.2 symbol) a c = V m) ∧
         (V m ≤ a → recurse (setCell b m.1 m.2 symbol) a c ≤ a ∧
            V m ≤ recurse (setCell b m.1 m.2 symbol) a c) ∧
         (c ≤ V m → c ≤ recurse (setCell b m.1 m.2 symbol) a c ∧
            recurse (setCell b m.1 m.2 symbol) a c ≤ V m))) →
      ((alpha < moves.foldl (fun acc m => max acc (V m)) M →
        moves.foldl (fun acc m => max acc (V m)) M < beta →
        MinimaxAI.abMaxFold recurse symbol moves M alpha beta b
          = moves.foldl (fun acc m => max acc (V m)) M) ∧
       (moves.foldl (fun acc m => max acc (V m)) M ≤ alpha →
        MinimaxAI.abMaxFold recurse symbol moves M alpha beta b ≤ alpha ∧
        moves.foldl (fun acc m => max acc (V m)) M
          ≤ MinimaxAI.abMaxFold recurse symbol moves M alpha beta b) ∧
       (beta ≤ moves.foldl (fun acc m => max acc (V m)) M →
        beta ≤ MinimaxAI.abMaxFold recurse symbol moves M alpha beta b ∧
        MinimaxAI.abMaxFold recurse symbol moves M alpha beta b
          ≤ moves.foldl (fun acc m => max acc (V m)) M)) := by
  intro moves
  induction moves with
  | nil =>
    intro M alpha beta hab hM hchild
    rw [MinimaxAI.abMaxFold]
    exact ⟨fun _ _ => rfl, fun _ => ⟨hM, le_rfl⟩, fun h => ⟨h, le_rfl⟩⟩
  | cons m rest ih =>
    intro M alpha beta hab hM hchild
    have htr := hchild m (by simp) alpha beta hab
    have hrest := fun x hx => hchild x (List.mem_cons_of_mem m hx)
    have hWval : (m :: rest).foldl (fun acc x => max acc (V x)) M
        = rest.foldl (fun acc x => max acc (V x)) (max M (V m)) := rfl
    rcases le_or_lt (V m) alpha with hA | hA
    · -- the child value fails low
      obtain ⟨hac_le, hvc_le⟩ := htr.2.1 hA
      have hRval : MinimaxAI.abMaxFold recurse symbol (m :: rest) M alpha beta b
          = MinimaxAI.abMaxFold recurse symbol rest
              (max M (recurse (setCell b m.1 m.2 symbol) alpha beta))
              (max alpha (recurse (setCell b m.1 m.2 symbol) alpha beta))
              beta b := by
        rw [MinimaxAI.abMaxFold]
        rw [if_neg]
        rw [max_eq_left hac_le]
        exact not_le.mpr hab
      rw [max_eq_left hac_le] at hRval
      have hM1 : max M (recurse (setCell b m.1 m.2 symbol) alpha beta)
          ≤ alpha := max_le hM hac_le
      have IH := ih _ alpha beta hab hM1 hrest
      -- W is below the continuation fold, which is below max alpha W
      have hWle : rest.foldl (fun acc x => max acc (V x)) (max M (V m))
          ≤ rest.foldl (fun acc x => max acc (V x))
              (max M (recurse (setCell b m.1 m.2 symbol) alpha beta)) :=
        foldlMax_mono V rest (max_le_max le_rfl hvc_le)
      have hWup : rest.foldl (fun acc x => max acc (V x))
            (max M (recurse (setCell b m.1 m.2 symbol) alpha beta))
          ≤ max alpha (rest.foldl (fun acc x => max acc (V x)) (max M (V m))) :=
        le_trans (foldlMax_le_max V rest _ _) (max_le_max hM1 le_rfl)
      refine ⟨?_, ?_, ?_⟩
      · intro h1 h2
        rw [hWval] at h1 h2 ⊢
        rw [hRval]
        have hW'eq : rest.foldl (fun acc x => max acc (V x))
            (max M (recurse (setCell b m.1 m.2 symbol) alpha beta))
            = rest.foldl (fun acc x => max acc (V x)) (max M (V m)) :=
          le_antisymm (le_trans hWup (max_le h1.le le_rfl)) hWle
        rw [← hW'eq] at h1 h2 ⊢
        exact IH.1 h1 h2
      · intro h
        rw [hWval] at h ⊢
        rw [hRval]
        have hW'le : rest.foldl (fun acc x => max acc (V x))
            (max M (recurse (setCell b m.1 m.2 symbol) alpha beta))
            ≤ alpha := le_trans hWup (max_le le_rfl h)
        obtain ⟨h1, h2⟩ := IH.2.1 hW'le
        exact ⟨h1, le_trans hWle h2⟩
      · intro h
        rw [hWval] at h ⊢
        rw [hRval]
        have hW'eq : rest.foldl (fun acc x => max acc (V x))
            (max M (recurse (setCell b m.1 m.2 symbol) alpha beta))
            = rest.foldl (fun acc x => max acc (V x)) (max M (V m)) :=
          le_antisymm (le_trans hWup
            (max_le (le_trans hab.le h) le_rfl)) hWle
        rw [← hW'eq] at h ⊢
        exact IH.2.2 h
    · rcases lt_or_le (V m) beta with hB | hC
      · -- the child value lies inside the window
        have hac : recurse (setCell b m.1 m.2 symbol) alpha beta = V m :=
          htr.1 hA hB
        have hRval : MinimaxAI.abMaxFold recurse symbol (m :: rest) M alpha beta b
            = MinimaxAI.abMaxFold recurse symbol rest
                (max M (V m)) (V m) beta b := by
          rw [MinimaxAI.abMaxFold]
          rw [hac, max_eq_right hA.le, if_neg (not_le.mpr hB)]
        have hM1 : max M (V m) ≤ V m := max_le (le_trans hM hA.le) le_rfl
        have IH := ih (max M (V m)) (V m) beta hB hM1 hrest
        have hWge : V m ≤ rest.foldl (fun acc x => max acc (V x)) (max M (V m)) :=
          le_trans (le_max_right M (V m)) (le_foldlMax V rest _)
        refine ⟨?_, ?_, ?_⟩
        · intro h1 h2
          rw [hWval] at h1 h2 ⊢
          rw [hRval]
          rcases lt_or_le (V m)
              (rest.foldl (fun acc x => max acc (V x)) (max M (V m))) with h | h
          · exact IH.1 h h2
          · obtain ⟨ha1, ha2⟩ := IH.2.1 h
            exact le_antisymm (le_trans ha1 hWge) ha2
        · intro h
          rw [hWval] at h
          exact absurd (lt_of_lt_of_le hA (le_trans hWge h)) (lt_irrefl alpha)
        · intro h
          rw [hWval] at h ⊢
          rw [hRval]
          exact IH.2.2 h
      · -- the child value fails high: cutoff
        obtain ⟨hac_ge, hac_le⟩ := htr.2.2 hC
        have hRval : MinimaxAI.abMaxFold recurse symbol (m :: rest) M alpha beta b
            = max M (recurse (setCell b m.1 m.2 symbol) alpha beta) := by
          rw [MinimaxAI.abMaxFold]
          rw [if_pos (le_trans hac_ge (le_max_right alpha _))]
        have hWge : beta ≤ rest.foldl (fun acc x => max acc (V x)) (max M (V m)) :=
          le_trans hC (le_trans (le_max_right M (V m)) (le_foldlMax V rest _))
        refine ⟨?_, ?_, ?_⟩
        · intro h1 h2
          rw [hWval] at h2
          exact absurd (lt_of_le_of_lt hWge h2) (lt_irrefl beta)
        · intro h
          rw [hWval] at h
          exact absurd (le_trans hWge h) (not_le.mpr hab)
        · intro h
          rw [hWval] at h ⊢
          rw [hRval]
          refine ⟨le_trans hac_ge (le_max_right M _), max_le ?_ ?_⟩
          · exact le_trans hM (le_trans hab.le hWge)
          · exact le_trans hac_le (le_trans (le_max_right M (V m))
              (le_foldlMax V rest _))

end FailSoftFold

section FailSoftFoldMin

/-- Fail-soft property of the minimizing alpha-beta move loop, dual to
abMaxFold_failsoft. -/
theorem abMinFold_failsoft (recurse : Board → XInt → XInt → XInt)
    (symbol : Int) (b : Board) (V : Move → XInt) :
    ∀ (moves : List Move) (M alpha beta : XInt),
      alpha < beta → beta ≤ M →
      (∀ m ∈ moves, ∀ a c : XInt, a < c →
        ((a < V m → V m < c →
            recurse (setCell b m.1 m.2 symbol) a c = V m) ∧
         (V m ≤ a → recurse (setCell b m.1 m.2 symbol) a c ≤ a ∧
            V m ≤ recurse (setCell b m.1 m.2 symbol) a c) ∧
         (c ≤ V m → c ≤ recurse (setCell b m.1 m.2 symbol) a c ∧
            recurse (setCell b m.1 m.2 symbol) a c ≤ V m))) →
      ((alpha < moves.foldl (fun acc m => min acc (V m)) M →
        moves.foldl (fun acc m => min acc (V m)) M < beta →
        MinimaxAI.abMinFold recurse symbol moves M alpha beta b
          = moves.foldl (fun acc m => min acc (V m)) M) ∧
       (moves.foldl (fun acc m => min acc (V m)) M ≤ alpha →
        MinimaxAI.abMinFold recurse symbol moves M alpha beta b ≤ alpha ∧
        moves.foldl (fun acc m => min acc (V m)) M
          ≤ MinimaxAI.abMinFold recurse symbol moves M alpha beta b) ∧
       (beta ≤ moves.foldl (fun acc m => min acc (V m)) M →
        beta ≤ MinimaxAI.abMinFold recurse symbol moves M alpha beta b ∧
        MinimaxAI.abMinFold recurse symbol moves M alpha beta b
          ≤ moves.foldl (fun acc m => min acc (V m)) M)) := by
  intro moves
  induction moves with
  | nil =>
    intro M alpha beta hab hM hchild
    rw [MinimaxAI.abMinFold]
    exact ⟨fun _ _ => rfl, fun h => ⟨h, le_rfl⟩, fun _ => ⟨hM, le_rfl⟩⟩
  | cons m rest ih =>
    intro M alpha beta hab hM hchild
    have htr := hchild m (by simp) alpha beta hab
    have hrest := fun x hx => hchild x (List.mem_cons_of_mem m hx)
    have hWval : (m :: rest).foldl (fun acc x => min acc (V x)) M
        = rest.foldl (fun acc x => min acc (V x)) (min M (V m)) := rfl
    rcases le_or_lt beta (V m) with hC | hC2
    · -- the child value fails high
      obtain ⟨hac_ge, hac_le⟩ := htr.2.2 hC
      have hRval : MinimaxAI.abMinFold recurse symbol (m :: rest) M alpha beta b
          = MinimaxAI.abMinFold recurse symbol rest
              (min M (recurse (setCell b m.1 m.2 symbol) alpha beta))
              alpha beta b := by
        rw [MinimaxAI.abMinFold]
        rw [min_eq_left hac_ge, if_neg (not_le.mpr hab)]
      have hM1 : beta ≤ min M (recurse (setCell b m.1 m.2 symbol) alpha beta) :=
        le_min hM hac_ge
      have IH := ih _ alpha beta hab hM1 hrest
      have hW'leW : rest.foldl (fun acc x => min acc (V x))
            (min M (recurse (setCell b m.1 m.2 symbol) alpha beta))
          ≤ rest.foldl (fun acc x => min acc (V x)) (min M (V m)) :=
        foldlMin_mono V rest (min_le_min le_rfl hac_le)
      have hWdown : min beta
            (rest.foldl (fun acc x => min acc (V x)) (min M (V m)))
          ≤ rest.foldl (fun acc x => min acc (V x))
              (min M (recurse (setCell b m.1 m.2 symbol) alpha beta)) :=
        le_trans (min_le_min hM1 le_rfl) (min_foldlMin_le V rest _ _)
      refine ⟨?_, ?_, ?_⟩
      · intro h1 h2
        rw [hWval] at h1 h2 ⊢
        rw [hRval]
        have hW'eq : rest.foldl (fun acc x => min acc (V x))
            (min M (recurse (setCell b m.1 m.2 symbol) alpha beta))
            = rest.foldl (fun acc x => min acc (V x)) (min M (V m)) :=
          le_antisymm hW'leW (le_trans (le_min h2.le le_rfl) hWdown)
        rw [← hW'eq] at h1 h2 ⊢
        exact IH.1 h1 h2
      · intro h
        rw [hWval] at h ⊢
        rw [hRval]
        have hWleW' : rest.foldl (fun acc x => min acc (V x)) (min M (V m))
            ≤ rest.foldl (fun acc x => min acc (V x))
                (min M (recurse (setCell b m.1 m.2 symbol) alpha beta)) :=
          le_trans (le_min (le_trans h hab.le) le_rfl) hWdown
        obtain ⟨h1, h2⟩ := IH.2.1 (le_trans hW'leW h)
        exact ⟨h1, le_trans hWleW' h2⟩
      · intro h
        rw [hWval] at h ⊢
        rw [hRval]
        have hW'ge : beta ≤ rest.foldl (fun acc x => min acc (V x))
            (min M (recurse (setCell b m.1 m.2 symbol) alpha beta)) :=
          le_trans (le_min le_rfl h) hWdown
        obtain ⟨h1, h2⟩ := IH.2.2 hW'ge
        exact ⟨h1, le_trans h2 hW'leW⟩
    · rcases lt_or_le alpha (V m) with hB | hA2
      · -- the child value lies inside the window
        have hac : recurse (setCell b m.1 m.2 symbol) alpha beta = V m :=
          htr.1 hB hC2
        have hRval : MinimaxAI.abMinFold recurse symbol (m :: rest) M alpha beta b
            = MinimaxAI.abMinFold recurse symbol rest
                (min M (V m)) alpha (V m) b := by
          rw [MinimaxAI.abMinFold]
          rw [hac, min_eq_right hC2.le, if_neg (not_le.mpr hB)]
        have hM1 : V m ≤ min M (V m) := le_min (le_trans hC2.le hM) le_rfl
        have IH := ih (min M (V m)) alpha (V m) hB hM1 hrest
        have hWleVm : rest.foldl (fun acc x => min acc (V x)) (min M (V m))
            ≤ V m := le_trans (foldlMin_le V rest _) (min_le_right M (V m))
        refine ⟨?_, ?_, ?_⟩
        · intro h1 h2
          rw [hWval] at h1 h2 ⊢
          rw [hRval]
          rcases lt_or_le
              (rest.foldl (fun acc x => min acc (V x)) (min M (V m)))
              (V m) with h | h
          · exact IH.1 h1 h
          · obtain ⟨hb1, hb2⟩ := IH.2.2 h
            exact le_antisymm hb2 (le_trans hWleVm hb1)
        · intro h
          rw [hWval] at h ⊢
          rw [hRval]
          exact IH.2.1 h
        · intro h
          rw [hWval] at h
          exact absurd (le_trans h hWleVm) (not_le.mpr hC2)
      · -- the child value fails low: cutoff
        obtain ⟨hac_le, hvc_le⟩ := htr.2.1 hA2
        have hRval : MinimaxAI.abMinFold recurse symbol (m :: rest) M alpha beta b
            = min M (recurse (setCell b m.1 m.2 symbol) alpha beta) := by
          rw [MinimaxAI.abMinFold]
          rw [if_pos (le_trans (min_le_right beta _) hac_le)]
        have hWle : rest.foldl (fun acc x => min acc (V x)) (min M (V m))
            ≤ V m := le_trans (foldlMin_le V rest _) (min_le_right M (V m))
        refine ⟨?_, ?_, ?_⟩
        · intro h1 h2
          rw [hWval] at h1
          exact absurd (lt_of_lt_of_le h1 (le_trans hWle hA2)) (lt_irrefl alpha)
        · intro h
          rw [hWval] at h ⊢
          rw [hRval]
          refine ⟨le_trans (min_le_right M _) hac_le, le_min ?_ ?_⟩
          · exact le_trans (foldlMin_le V rest _) (min_le_left M (V m))
          · exact le_trans hWle hvc_le
        · intro h
          rw [hWval] at h
          exact absurd (le_trans h (le_trans hWle hA2)) (not_le.mpr hab)

end FailSoftFoldMin

section FailSoftNode

theorem failsoft_triple_of_eq {a v alpha beta : XInt} (h : a = v) :
    ((alpha < v → v < beta → a = v) ∧ (v ≤ alpha → a ≤ alpha ∧ v ≤ a) ∧
     (beta ≤ v → beta ≤ a ∧ a ≤ v)) := by
  subst h
  exact ⟨fun _ _ => rfl, fun h => ⟨h, le_rfl⟩, fun h => ⟨h, le_rfl⟩⟩

/-- Fail-soft correctness of the transposition-free pruned search against
the unpruned exhaustive minimax, by induction on the remaining depth. -/
theorem absearch_failsoft (cfg : AICfg) :
    ∀ (remaining : Nat) (b : Board) (depth : Nat) (isMax : Bool)
      (alpha beta : XInt), alpha < beta →
      ((alpha < MinimaxAI.plainMinimax cfg b depth remaining isMax →
        MinimaxAI.plainMinimax cfg b depth remaining isMax < beta →
        MinimaxAI.abSearch cfg b depth remaining isMax alpha beta
          = MinimaxAI.plainMinimax cfg b depth remaining isMax) ∧
       (MinimaxAI.plainMinimax cfg b depth remaining isMax ≤ alpha →
        MinimaxAI.abSearch cfg b depth remaining isMax alpha beta ≤ alpha ∧
        MinimaxAI.plainMinimax cfg b depth remaining isMax
          ≤ MinimaxAI.abSearch cfg b depth remaining isMax alpha beta) ∧
       (beta ≤ MinimaxAI.plainMinimax cfg b depth remaining isMax →
        beta ≤ MinimaxAI.abSearch cfg b depth remaining isMax alpha beta ∧
        MinimaxAI.abSearch cfg b depth remaining isMax alpha beta
          ≤ MinimaxAI.plainMinimax cfg b depth remaining isMax)) := by
  intro remaining
  induction remaining with
  | zero =>
    intro b depth isMax alpha beta hab
    apply failsoft_triple_of_eq
    rw [MinimaxAI.abSearch, MinimaxAI.plainMinimax]
  | succ rem ih =>
    intro b depth isMax alpha beta hab
    by_cases hwin : MinimaxAI.check_winner cfg b = 0
    · by_cases hdraw : MinimaxAI.is_draw b = true
      · apply failsoft_triple_of_eq
        rw [MinimaxAI.abSearch, MinimaxAI.plainMinimax]
        simp [hwin, hdraw]
      · have ha : MinimaxAI.abSearch cfg b depth (rem + 1) isMax alpha beta
            = if isMax then
                MinimaxAI.abMaxFold
                  (fun b' a' c' => MinimaxAI.abSearch cfg b' (depth + 1) rem
                    false a' c')
                  cfg.symbolValue (MinimaxAI.ordered_moves cfg b true)
                  ⊥ alpha beta b
              else
                MinimaxAI.abMinFold
                  (fun b' a' c' => MinimaxAI.abSearch cfg b' (depth + 1) rem
                    true a' c')
                  (-cfg.symbolValue) (MinimaxAI.ordered_moves cfg b false)
                  ⊤ alpha beta b := by
          rw [MinimaxAI.abSearch]
          simp [hwin, hdraw]
        have hp : MinimaxAI.plainMinimax cfg b depth (rem + 1) isMax
            = if isMax then
                (MinimaxAI.get_possible_moves b).foldl (fun acc m =>
                  max acc (MinimaxAI.plainMinimax cfg
                    (setCell b m.1 m.2 cfg.symbolValue) (depth + 1) rem false)) ⊥
              else
                (MinimaxAI.get_possible_moves b).foldl (fun acc m =>
                  min acc (MinimaxAI.plainMinimax cfg
                    (setCell b m.1 m.2 (-cfg.symbolValue)) (depth + 1) rem true)) ⊤ := by
          rw [MinimaxAI.plainMinimax]
          simp [hwin, hdraw]
        cases isMax with
        | true =>
          simp only [if_true, ite_true] at ha hp
          rw [ha, hp]
          have hperm : (MinimaxAI.get_possible_moves b).foldl (fun acc m =>
              max acc (MinimaxAI.plainMinimax cfg
                (setCell b m.1 m.2 cfg.symbolValue) (depth + 1) rem false)) ⊥
              = (MinimaxAI.ordered_moves cfg b true).foldl (fun acc m =>
              max acc (MinimaxAI.plainMinimax cfg
                (setCell b m.1 m.2 cfg.symbolValue) (depth + 1) rem false)) ⊥ := by
            refine ((sortDesc_perm (MinimaxAI.evaluate_move cfg b)
              (MinimaxAI.get_possible_moves b)).foldl_eq' ?_ ⊥).symm
            intro x _ y _ z
            exact sup_right_comm z _ _
          rw [hperm]
          exact abMaxFold_failsoft _ _ b _ _ ⊥ alpha beta hab bot_le
            (fun m _ a c hac => ih (setCell b m.1 m.2 cfg.symbolValue)
              (depth + 1) false a c hac)
        | false =>
          simp only [Bool.false_eq_true, if_false, ite_false] at ha hp
          rw [ha, hp]
          have hperm : (MinimaxAI.get_possible_moves b).foldl (fun acc m =>
              min acc (MinimaxAI.plainMinimax cfg
                (setCell b m.1 m.2 (-cfg.symbolValue)) (depth + 1) rem true)) ⊤
              = (MinimaxAI.ordered_moves cfg b false).foldl (fun acc m =>
              min acc (MinimaxAI.plainMinimax cfg
                (setCell b m.1 m.2 (-cfg.symbolValue)) (depth + 1) rem true)) ⊤ := by
            refine ((sortAsc_perm (MinimaxAI.evaluate_move cfg b)
              (MinimaxAI.get_possible_moves b)).foldl_eq' ?_ ⊤).symm
            intro x _ y _ z
            exact inf_right_comm z _ _
          rw [hperm]
          exact abMinFold_failsoft _ _ b _ _ ⊤ alpha beta hab le_top
            (fun m _ a c hac => ih (setCell b m.1 m.2 (-cfg.symbolValue))
              (depth + 1) true a c hac)
    · apply failsoft_triple_of_eq
      rw [MinimaxAI.abSearch, MinimaxAI.plainMinimax]
      simp [hwin]

/-- With the full window the pruned (transposition-free) search returns
exactly the unpruned minimax value. -/
theorem absearch_full_window (cfg : AICfg) (b : Board) (depth remaining : Nat)
    (isMax : Bool) :
    MinimaxAI.abSearch cfg b depth remaining isMax ⊥ ⊤
      = MinimaxAI.plainMinimax cfg b depth remaining isMax := by
  have h := absearch_failsoft cfg remaining b depth isMax ⊥ ⊤ bot_lt_top
  rcases le_or_lt (MinimaxAI.plainMinimax cfg b depth remaining isMax) ⊥
    with hlo | hlo
  · obtain ⟨h1, h2⟩ := h.2.1 hlo
    rw [le_bot_iff.mp h1, le_bot_iff.mp hlo]
  · rcases le_or_lt (⊤ : XInt)
        (MinimaxAI.plainMinimax cfg b depth remaining isMax) with hhi | hhi
    · obtain ⟨h1, h2⟩ := h.2.2 hhi
      rw [top_le_iff.mp h1, top_le_iff.mp hhi]
    · exact h.1 hlo hhi

end FailSoftNode

section ClaimC1

theorem foldl_congr_mem {f g : XInt → Move → XInt} :
    ∀ (l : List Move) (a : XInt), (∀ acc : XInt, ∀ x ∈ l, f acc x = g acc x) →
      l.foldl f a = l.foldl g a := by
  intro l
  induction l with
  | nil => intro a h; rfl
  | cons x t ih =>
    intro a h
    rw [List.foldl_cons, List.foldl_cons, h a x (by simp)]
    exact ih _ fun acc y hy => h acc y (by simp [hy])

set_option maxHeartbeats 12000000 in
/-- C1 counterexample: at the concrete position bTT with win length 3 and
search depth 4, the root iteration of the real search (alpha-beta pruning
with the transposition table) scores 1000, while the unpruned exhaustive
minimax over the same depth scores 0: the transposition table stores
cutoff bounds without exact/lower/upper flags and reusing them changes the
returned root score. -/
theorem c1_counterexample :
    MinimaxAI.rootIterScore cfg33 bTT 4 100000 = some (xfin 1000) ∧
    MinimaxAI.plainRootScore cfg33 bTT 4 = xfin 0 ∧
    xfin 1000 ≠ xfin 0 := ⟨by decide, by decide, by decide⟩

/-- C1 amended: with the transposition table removed, for every board,
depth and fixed deterministic move ordering the root score of the pruned
alpha-beta search equals the root score of the unpruned exhaustive minimax:
pruning and move ordering alone never change the returned score; only the
transposition caching can. -/
theorem c1_amended (cfg : AICfg) (b : Board) (d : Nat) :
    MinimaxAI.abRootScore cfg b d = MinimaxAI.plainRootScore cfg b d := by
  unfold MinimaxAI.abRootScore MinimaxAI.plainRootScore
  have hcongr : (MinimaxAI.sortDesc (MinimaxAI.evaluate_move cfg b)
      (MinimaxAI.get_possible_moves b)).foldl
      (fun acc m => max acc (MinimaxAI.abSearch cfg
        (setCell b m.1 m.2 cfg.symbolValue) 1 (d - 1) false ⊥ ⊤)) ⊥
      = (MinimaxAI.sortDesc (MinimaxAI.evaluate_move cfg b)
      (MinimaxAI.get_possible_moves b)).foldl
      (fun acc m => max acc (MinimaxAI.plainMinimax cfg
        (setCell b m.1 m.2 cfg.symbolValue) 1 (d - 1) false)) ⊥ :=
    foldl_congr_mem _ ⊥ fun acc x _ => by
      rw [absearch_full_window]
  rw [hcongr]
  refine (sortDesc_perm (MinimaxAI.evaluate_move cfg b)
    (MinimaxAI.get_possible_moves b)).foldl_eq' ?_ ⊥
  intro x _ y _ z
  exact sup_right_comm z _ _

end ClaimC1
